import Mathlib

/-!
Verification of the Gitick task engine.

The definitions below are a shallow embedding of the TypeScript sources:
`src/utils/taskView.ts` (view filtering, sorting, counting),
`src/utils/taskSanitizer.ts` (import sanitization),
`src/components/TaskInput.tsx` (free-text command parsing and task submit),
`src/components/Heatmap.tsx` (streak computation) and the focus-timer state
handlers in `src/App.tsx`.

Modelling conventions: JS strings are Lean `String`s compared through an
explicit lexicographic comparison on their character lists (ISO dates are
ASCII, where JS code-unit order and `localeCompare` sign agree with it);
JS numbers that the code range-checks with `Number.isFinite` are modelled
as `Option Int` (`none` = non-finite); `undefined`/`null` record fields are
`Option` values, and JS truthiness of an optional string is "present and
non-empty".  The wall clock is passed in explicitly (`todayStr`,
`next7Str`, millisecond timestamps) exactly where the source reads it.
-/

namespace Gitick

/-- Priority enum from `types.ts`. -/
inductive Priority where
  | low
  | medium
  | high
deriving DecidableEq, Repr

/-- Subtask record from `types.ts`. -/
structure Subtask where
  id : String
  title : String
  completed : Bool
deriving DecidableEq, Repr

/-- Task record from `types.ts`.  Optional fields are `Option`;
`completedAt`/`createdAt` are millisecond timestamps. -/
structure Task where
  id : String
  title : String
  description : String
  completed : Bool
  completedAt : Option Int
  priority : Priority
  dueDate : Option String
  tags : List String
  list : Option String
  subtasks : List Subtask
  createdAt : Int
deriving DecidableEq, Repr

/-- Lexicographic three-way comparison on character lists; models the sign of
JS code-unit string comparison (and of `localeCompare` on ASCII ISO dates). -/
def lexCmp : List Char → List Char → Int
  | [], [] => 0
  | [], _ :: _ => -1
  | _ :: _, [] => 1
  | a :: as, b :: bs => if a < b then -1 else if b < a then 1 else lexCmp as bs

/-- JS `a <= b` on strings. -/
def jsLeB (a b : String) : Bool := decide (lexCmp a.data b.data ≤ 0)

/-- JS truthiness of an optional string field (`Boolean(x)`):
present and non-empty. -/
def optTruthy : Option String → Bool
  | none => false
  | some s => decide (s ≠ "")

/-- JS `x <= limit` where `x` is an optional string; `undefined <= s` is
false (NaN comparison).  Only reached behind a truthiness guard in the
source. -/
def optLeB : Option String → String → Bool
  | none, _ => false
  | some d, s => jsLeB d s

/-- PRIORITY_SCORE from `taskView.ts` (HIGH 3, MEDIUM 2, LOW 1). -/
def PRIORITY_SCORE : Priority → Int
  | .high => 3
  | .medium => 2
  | .low => 1

/-- Due dates as the sort comparator sees them: a falsy (`undefined` or
empty) due date acts as "no date". -/
def truthyStr : Option String → Option String
  | none => none
  | some s => if s = "" then none else some s

/-- The sort comparator of `getFilteredTasks` (`taskView.ts` lines 40-54):
completed after incomplete, then priority score descending, then dated
before undated with dated pairs compared by `localeCompare`, then
`createdAt` descending.  Returns the JS comparator's sign. -/
def taskCmp (a b : Task) : Int :=
  if a.completed ≠ b.completed then (if a.completed then 1 else -1)
  else
    let scoreA := PRIORITY_SCORE a.priority
    let scoreB := PRIORITY_SCORE b.priority
    if scoreA ≠ scoreB then scoreB - scoreA
    else
      match truthyStr a.dueDate, truthyStr b.dueDate with
      | some da, some db => lexCmp da.data db.data
      | some _, none => -1
      | none, some _ => 1
      | none, none => b.createdAt - a.createdAt

/-- The stable sort applied by `getFilteredTasks` (JS `Array.prototype.sort`
is stable per ES2019, and a stable sort for a consistent comparator has a
unique result, so any stable sorting algorithm is a faithful model;
insertion sort is stable — see the stability clause of the C5 theorem). -/
def sortTasks (l : List Task) : List Task :=
  l.insertionSort fun a b => taskCmp a b ≤ 0

/-- The filtering step of `getFilteredTasks` (`taskView.ts` lines 25-38),
before sorting.  `todayStr` and `next7Str` are the values the source
computes from the local clock. -/
def filterStep (todayStr next7Str : String) (tasks : List Task)
    (filter : String) (projects : List String) : List Task :=
  if filter = "completed" then tasks.filter (·.completed)
  else if filter = "next7days" then
    tasks.filter fun t => !t.completed && optTruthy t.dueDate && optLeB t.dueDate next7Str
  else if filter = "today" then
    tasks.filter fun t => !t.completed && decide (t.dueDate = some todayStr)
  else if filter = "inbox" then
    tasks.filter fun t => !t.completed && (decide (t.list = some "Inbox") || !optTruthy t.list)
  else if filter ∈ projects then
    tasks.filter fun t => decide (t.list = some filter) && !t.completed
  else
    tasks.filter fun t => !t.completed

/-- `getFilteredTasks` from `taskView.ts`: filter for the view, then the
stable comparator sort. -/
def getFilteredTasks (todayStr next7Str : String) (tasks : List Task)
    (filter : String) (projects : List String) : List Task :=
  sortTasks (filterStep todayStr next7Str tasks filter projects)

/-- Point update of the counts record from `getTaskCounts`. -/
def bump (f : String → Nat) (k : String) : String → Nat :=
  fun x => if x = k then f k + 1 else f x

/-- The keys the `counts` object owns in `getTaskCounts`: the three fixed
buckets plus one per project (`hasOwnProperty` domain). -/
def countsDomain (projects : List String) : List String :=
  "inbox" :: "today" :: "next7days" :: projects

/-- One iteration of the `tasks.forEach` loop in `getTaskCounts`
(`taskView.ts` lines 101-119). -/
def countStep (todayStr next7Str : String) (projects : List String)
    (f : String → Nat) (t : Task) : String → Nat :=
  if t.completed then f
  else
    let f1 := if t.list = some "Inbox" ∨ optTruthy t.list = false then bump f "inbox" else f
    let f2 := if t.dueDate = some todayStr then bump f1 "today" else f1
    let f3 := if optTruthy t.dueDate && optLeB t.dueDate next7Str then bump f2 "next7days" else f2
    match t.list with
    | some s => if optTruthy t.list = true ∧ s ∈ countsDomain projects then bump f3 s else f3
    | none => f3

/-- `getTaskCounts` from `taskView.ts`: all keys start at 0 (the three fixed
buckets and each project are initialised to 0), then each task increments
every bucket it matches. -/
def getTaskCounts (todayStr next7Str : String) (tasks : List Task)
    (projects : List String) : String → Nat :=
  tasks.foldl (countStep todayStr next7Str projects) fun _ => 0

/-! ### Order lemmas for the comparator -/

theorem lexCmp_antisym (a b : List Char) : lexCmp b a = -lexCmp a b := by
  induction a generalizing b with
  | nil => cases b <;> simp [lexCmp]
  | cons x xs ih =>
    cases b with
    | nil => simp [lexCmp]
    | cons y ys =>
      by_cases hxy : x < y
      · have : ¬ y < x := lt_asymm hxy
        simp [lexCmp, hxy, this]
      · by_cases hyx : y < x
        · simp [lexCmp, hxy, hyx]
        · simp [lexCmp, hxy, hyx, ih]

theorem lexCmp_le_trans {a b c : List Char} (h1 : lexCmp a b ≤ 0)
    (h2 : lexCmp b c ≤ 0) : lexCmp a c ≤ 0 := by
  induction a generalizing b c with
  | nil => cases c <;> simp [lexCmp]
  | cons x xs ih =>
    cases b with
    | nil => simp [lexCmp] at h1
    | cons y ys =>
      cases c with
      | nil => simp [lexCmp] at h2
      | cons z zs =>
        by_cases hxy : x < y
        · have hxz : x < z := by
            by_cases hyz : y < z
            · exact lt_trans hxy hyz
            · by_cases hzy : z < y
              · simp [lexCmp, hyz, hzy] at h2
              · have : y = z := le_antisymm (not_lt.mp hzy) (not_lt.mp hyz)
                exact this ▸ hxy
          simp [lexCmp, hxz]
        · by_cases hyx : y < x
          · simp [lexCmp, hxy, hyx] at h1
          · have hxeq : x = y := le_antisymm (not_lt.mp hyx) (not_lt.mp hxy)
            subst hxeq
            by_cases hyz : x < z
            · simp [lexCmp, hyz]
            · by_cases hzy : z < x
              · simp [lexCmp, hyz, hzy] at h2
              · have : x = z := le_antisymm (not_lt.mp hzy) (not_lt.mp hyz)
                subst this
                simp [lexCmp, hyz, hzy] at h1 h2 ⊢
                exact ih h1 h2

theorem taskCmp_antisym (a b : Task) : taskCmp b a = -taskCmp a b := by
  unfold taskCmp
  rcases ha : truthyStr a.dueDate with _ | da <;> rcases hb : truthyStr b.dueDate with _ | db <;>
    cases hca : a.completed <;> cases hcb : b.completed <;>
      cases hpa : a.priority <;> cases hpb : b.priority <;>
        simp_all [PRIORITY_SCORE] <;> exact lexCmp_antisym _ _

theorem taskCmp_total (a b : Task) : taskCmp a b ≤ 0 ∨ taskCmp b a ≤ 0 := by
  rw [taskCmp_antisym]
  omega

/-- The sort order of the amended claim C5, stated key by key: incomplete
before completed; then higher priority score first; then dated before
undated, dated pairs by lexicographic date (equal dates tie); undated pairs
by `createdAt` descending. -/
def specLeB (a b : Task) : Bool :=
  (!a.completed && b.completed) ||
  ((a.completed == b.completed) &&
    (decide (PRIORITY_SCORE b.priority < PRIORITY_SCORE a.priority) ||
     ((a.priority == b.priority) &&
       match truthyStr a.dueDate, truthyStr b.dueDate with
       | some da, some db => decide (lexCmp da.data db.data ≤ 0)
       | some _, none => true
       | none, some _ => false
       | none, none => decide (b.createdAt ≤ a.createdAt))))

theorem PRIORITY_SCORE_inj {p q : Priority} (h : PRIORITY_SCORE p = PRIORITY_SCORE q) :
    p = q := by
  cases p <;> cases q <;> simp_all [PRIORITY_SCORE]

theorem taskCmp_le_iff_specLeB (a b : Task) : taskCmp a b ≤ 0 ↔ specLeB a b = true := by
  unfold taskCmp specLeB
  rcases ha : truthyStr a.dueDate with _ | da <;> rcases hb : truthyStr b.dueDate with _ | db <;>
    cases hca : a.completed <;> cases hcb : b.completed <;>
      cases hpa : a.priority <;> cases hpb : b.priority <;>
        simp_all [PRIORITY_SCORE]

theorem specLeB_trans {a b c : Task} (h1 : specLeB a b = true)
    (h2 : specLeB b c = true) : specLeB a c = true := by
  unfold specLeB at h1 h2 ⊢
  simp only [Bool.or_eq_true, Bool.and_eq_true, Bool.not_eq_true', beq_iff_eq,
    decide_eq_true_eq] at h1 h2 ⊢
  rcases h1 with ⟨ha, hb⟩ | ⟨hcab, h1⟩
  · rcases h2 with ⟨hb', hc⟩ | ⟨hcbc, h2⟩
    · simp [hb] at hb'
    · exact Or.inl ⟨ha, hcbc ▸ hb⟩
  · rcases h2 with ⟨hb', hc⟩ | ⟨hcbc, h2⟩
    · exact Or.inl ⟨hcab ▸ hb', hc⟩
    · refine Or.inr ⟨hcab.trans hcbc, ?_⟩
      rcases h1 with h1 | ⟨hp1, h1⟩
      · rcases h2 with h2 | ⟨hp2, h2⟩
        · exact Or.inl (lt_trans h2 h1)
        · exact Or.inl (hp2 ▸ h1)
      · rcases h2 with h2 | ⟨hp2, h2⟩
        · exact Or.inl (hp1 ▸ h2)
        · refine Or.inr ⟨hp1.trans hp2, ?_⟩
          rcases hta : truthyStr a.dueDate with _ | da <;>
            rcases htb : truthyStr b.dueDate with _ | db <;>
            rcases htc : truthyStr c.dueDate with _ | dc <;>
            simp_all
          · omega
          · exact lexCmp_le_trans h1 h2

theorem taskCmp_le_trans {a b c : Task} (h1 : taskCmp a b ≤ 0)
    (h2 : taskCmp b c ≤ 0) : taskCmp a c ≤ 0 :=
  (taskCmp_le_iff_specLeB a c).mpr
    (specLeB_trans ((taskCmp_le_iff_specLeB a b).mp h1)
      ((taskCmp_le_iff_specLeB b c).mp h2))


/-! ### Claim C2: the next7days filter -/

/-- Claim C2: for every task list, filtering with the `next7days` view
returns exactly (as a multiset, i.e. up to the subsequent sort) the tasks
that are incomplete, have a (truthy) due date set, and whose due date is
lexicographically at or before today plus 7 days; incomplete tasks with no
due date are excluded. -/
theorem C2_next7days_filter (todayStr next7Str : String) (tasks : List Task)
    (projects : List String) :
    (getFilteredTasks todayStr next7Str tasks "next7days" projects).Perm
      (tasks.filter fun t =>
        !t.completed &&
          match t.dueDate with
          | some d => decide (d ≠ "") && jsLeB d next7Str
          | none => false) := by
  unfold getFilteredTasks sortTasks
  refine (List.perm_insertionSort _ _).trans ?_
  unfold filterStep
  rw [if_neg (by decide : ¬ ("next7days" : String) = "completed"), if_pos rfl]
  have heq : (tasks.filter fun t =>
      !t.completed && optTruthy t.dueDate && optLeB t.dueDate next7Str) =
      tasks.filter fun t =>
        !t.completed &&
          match t.dueDate with
          | some d => decide (d ≠ "") && jsLeB d next7Str
          | none => false := by
    refine List.filter_congr ?_
    intro t _
    cases hd : t.dueDate <;> simp [optTruthy, optLeB, hd, Bool.and_assoc]
  exact heq ▸ List.Perm.refl _

/-! ### Claim C5: the sort comparator -/

/-- Concrete tasks for the C5 counterexample and witness. -/
def c5TaskX : Task := ⟨"x", "tx", "", false, none, .high, none, [], none, [], 9⟩

def c5TaskA : Task := ⟨"a", "ta", "", false, none, .medium, some "2025-01-01", [], none, [], 1⟩

def c5TaskB : Task := ⟨"b", "tb", "", false, none, .medium, some "2025-01-01", [], none, [], 2⟩

/-- Claim C5 counterexample: two incomplete tasks with equal priority and
equal due dates but different `createdAt` keep their input order (the
comparator returns 0 on them and never consults `createdAt`), instead of
putting the more recently created task first as the claim requires. -/
theorem C5_counterexample :
    sortTasks [c5TaskA, c5TaskB] = [c5TaskA, c5TaskB] ∧
    c5TaskA.createdAt < c5TaskB.createdAt ∧
    c5TaskA.priority = c5TaskB.priority ∧
    c5TaskA.completed = c5TaskB.completed ∧
    c5TaskA.dueDate = c5TaskB.dueDate ∧
    sortTasks [c5TaskA, c5TaskB] ≠ [c5TaskB, c5TaskA] := by
  refine ⟨by decide, by decide, by decide, by decide, by decide, by decide⟩

/-- Claim C5 (amended): the view-engine sort is a permutation of its input,
orders it by (1) incomplete before completed, (2) higher priority first,
(3) dated before undated and dated pairs by lexicographic date — equal
dates tie — and (4) undated pairs by `createdAt` descending; it is stable:
two tasks tied under this order keep their relative input order. -/
theorem C5_sort_order (l : List Task) :
    (sortTasks l).Perm l ∧
    (sortTasks l).Pairwise (fun a b => specLeB a b = true) ∧
    ∀ a b : Task, specLeB a b = true → specLeB b a = true →
      [a, b].Sublist l → [a, b].Sublist (sortTasks l) := by
  haveI htrans : IsTrans Task (fun a b => taskCmp a b ≤ 0) :=
    ⟨fun _ _ _ h1 h2 => taskCmp_le_trans h1 h2⟩
  haveI htotal : IsTotal Task (fun a b => taskCmp a b ≤ 0) :=
    ⟨fun x y => taskCmp_total x y⟩
  refine ⟨List.perm_insertionSort _ l, ?_, ?_⟩
  · refine (List.sorted_insertionSort _ l).imp ?_
    intro a b h
    exact (taskCmp_le_iff_specLeB a b).mp h
  · intro a b h1 h2 hsub
    refine List.sublist_insertionSort ?_ hsub
    refine List.Pairwise.cons ?_ (List.pairwise_singleton _ _)
    intro y hy
    have hyb : y = b := by simpa using hy
    subst hyb
    exact (taskCmp_le_iff_specLeB a y).mpr h1

/-- Claim C5 witness: concrete instance of the stability clause — two tied
tasks form a sublist of the sorted output of a three-task list. -/
theorem C5_sort_order_witness :
    specLeB c5TaskA c5TaskB = true ∧ specLeB c5TaskB c5TaskA = true ∧
    [c5TaskA, c5TaskB].Sublist (sortTasks [c5TaskX, c5TaskA, c5TaskB]) :=
  ⟨by decide, by decide,
    (C5_sort_order [c5TaskX, c5TaskA, c5TaskB]).2.2 c5TaskA c5TaskB
      (by decide) (by decide) (by decide)⟩


/-! ### Claim C6: counts versus filtered lengths -/

theorem bump_self (f : String → Nat) (k : String) : bump f k k = f k + 1 := by
  simp [bump]

theorem bump_other (f : String → Nat) (k x : String) (h : x ≠ k) : bump f k x = f x := by
  simp [bump, h]

/-- Pointwise value of one `getTaskCounts` loop iteration: key `k` gains the
sum of the indicators of the four increments that target it. -/
theorem countStep_apply (todayStr next7Str : String) (projects : List String)
    (f : String → Nat) (t : Task) (k : String) :
    countStep todayStr next7Str projects f t k =
      f k + (if t.completed then 0 else
        ((if (t.list = some "Inbox" ∨ optTruthy t.list = false) ∧ k = "inbox" then 1 else 0) +
         (if t.dueDate = some todayStr ∧ k = "today" then 1 else 0) +
         (if (optTruthy t.dueDate && optLeB t.dueDate next7Str) = true ∧ k = "next7days"
            then 1 else 0) +
         (match t.list with
          | some s => if (optTruthy t.list = true ∧ s ∈ countsDomain projects) ∧ k = s
              then 1 else 0
          | none => 0))) := by
  unfold countStep
  rcases hls : t.list with _ | s <;> cases hc : t.completed <;>
    simp only [hls, hc, if_true, if_false, Bool.false_eq_true] <;>
      (try omega) <;> split_ifs <;> simp_all [bump]

/-- Accounting over the `getTaskCounts` fold: if every iteration adds to key
`k` exactly the indicator of `q`, the fold counts `q`. -/
theorem foldl_countStep_eq (todayStr next7Str : String) (projects : List String)
    (k : String) (q : Task → Bool) :
    ∀ tasks : List Task,
      (∀ f t, t ∈ tasks → countStep todayStr next7Str projects f t k
          = f k + (if q t then 1 else 0)) →
      ∀ f0 : String → Nat,
        tasks.foldl (countStep todayStr next7Str projects) f0 k = f0 k + tasks.countP q := by
  intro tasks
  induction tasks with
  | nil => intro _ f0; simp
  | cons t ts ih =>
    intro hstep f0
    rw [List.foldl_cons, ih (fun f u hu => hstep f u (List.mem_cons_of_mem _ hu)) _,
      hstep f0 t (List.mem_cons_self _ _), List.countP_cons]
    omega

theorem getFilteredTasks_length (todayStr next7Str : String) (tasks : List Task)
    (filter : String) (projects : List String) :
    (getFilteredTasks todayStr next7Str tasks filter projects).length
      = (filterStep todayStr next7Str tasks filter projects).length := by
  unfold getFilteredTasks sortTasks
  exact List.length_insertionSort _ _


theorem countStep_inbox (todayStr next7Str : String) (projects : List String)
    (f : String → Nat) (t : Task)
    (htt : t.completed = false → t.list ≠ some "inbox") :
    countStep todayStr next7Str projects f t "inbox"
      = f "inbox" +
        (if !t.completed && (decide (t.list = some "Inbox") || !optTruthy t.list)
          then 1 else 0) := by
  rw [countStep_apply]
  rcases hls : t.list with _ | s <;> cases hc : t.completed <;>
    simp_all [optTruthy] <;>
      first
      | (split_ifs <;> simp_all)
      | (intro _ _ hx; exact htt hx.symm)

theorem countStep_todayKey (todayStr next7Str : String) (projects : List String)
    (f : String → Nat) (t : Task)
    (htt : t.completed = false → t.list ≠ some "today") :
    countStep todayStr next7Str projects f t "today"
      = f "today" + (if !t.completed && decide (t.dueDate = some todayStr) then 1 else 0) := by
  rw [countStep_apply]
  rcases hls : t.list with _ | s <;> cases hc : t.completed <;>
    simp_all [optTruthy] <;>
      first
      | (split_ifs <;> simp_all)
      | (intro _ _ hx; exact htt hx.symm)

theorem countStep_next7Key (todayStr next7Str : String) (projects : List String)
    (f : String → Nat) (t : Task)
    (htt : t.completed = false → t.list ≠ some "next7days") :
    countStep todayStr next7Str projects f t "next7days"
      = f "next7days" +
        (if !t.completed && optTruthy t.dueDate && optLeB t.dueDate next7Str
          then 1 else 0) := by
  rw [countStep_apply]
  rcases hls : t.list with _ | s <;> cases hc : t.completed <;>
    simp_all [optTruthy] <;>
      first
      | (split_ifs <;> simp_all)
      | (intro _ _ hx; exact htt hx.symm)

theorem countStep_project (todayStr next7Str : String) (projects : List String)
    (f : String → Nat) (t : Task) (p : String)
    (h1 : p ≠ "inbox") (h2 : p ≠ "today") (h3 : p ≠ "next7days") (h4 : p ≠ "")
    (hmem : p ∈ projects) :
    countStep todayStr next7Str projects f t p
      = f p + (if decide (t.list = some p) && !t.completed then 1 else 0) := by
  rw [countStep_apply]
  rcases hls : t.list with _ | s <;> cases hc : t.completed <;>
    simp_all [optTruthy, countsDomain] <;>
      first
      | (split_ifs <;> simp_all)
      | (by_cases hsp : s = p
         · subst hsp
           simp [h4, hmem]
         · simp [hsp, Ne.symm hsp])


/-- Claim C6 counterexample: an incomplete task whose `list` is literally
the string `"today"` increments the `today` counter through the
`hasOwnProperty` project branch, while the `today` view filters on the due
date and returns nothing — so the count and the filtered length disagree. -/
theorem C6_counterexample :
    getTaskCounts "2025-01-02" "2025-01-09"
        [⟨"t1", "x", "", false, none, .medium, none, [], some "today", [], 0⟩] [] "today" = 1 ∧
    (getFilteredTasks "2025-01-02" "2025-01-09"
        [⟨"t1", "x", "", false, none, .medium, none, [], some "today", [], 0⟩] "today" []).length
      = 0 := by
  refine ⟨by decide, by decide⟩

/-- Claim C6 (amended): provided no project is named `inbox`, `today`,
`next7days`, `completed` or the empty string, and no incomplete task's
`list` is literally `inbox`, `today` or `next7days`, the count computed by
`getTaskCounts` for each of the views `inbox`, `today`, `next7days` and
every known project equals the length of `getFilteredTasks` for that view. -/
theorem C6_counts_match (todayStr next7Str : String) (tasks : List Task)
    (projects : List String)
    (hp : ∀ p ∈ projects,
      p ≠ "inbox" ∧ p ≠ "today" ∧ p ≠ "next7days" ∧ p ≠ "completed" ∧ p ≠ "")
    (ht : ∀ t ∈ tasks, t.completed = false →
      t.list ≠ some "inbox" ∧ t.list ≠ some "today" ∧ t.list ≠ some "next7days") :
    getTaskCounts todayStr next7Str tasks projects "inbox"
        = (getFilteredTasks todayStr next7Str tasks "inbox" projects).length ∧
    getTaskCounts todayStr next7Str tasks projects "today"
        = (getFilteredTasks todayStr next7Str tasks "today" projects).length ∧
    getTaskCounts todayStr next7Str tasks projects "next7days"
        = (getFilteredTasks todayStr next7Str tasks "next7days" projects).length ∧
    ∀ p ∈ projects, getTaskCounts todayStr next7Str tasks projects p
        = (getFilteredTasks todayStr next7Str tasks p projects).length := by
  refine ⟨?_, ?_, ?_, ?_⟩
  · rw [getFilteredTasks_length]
    unfold getTaskCounts filterStep
    rw [if_neg (by decide : ¬ ("inbox" : String) = "completed"),
      if_neg (by decide : ¬ ("inbox" : String) = "next7days"),
      if_neg (by decide : ¬ ("inbox" : String) = "today"), if_pos rfl,
      (List.countP_eq_length_filter _ _).symm,
      foldl_countStep_eq todayStr next7Str projects "inbox" _ tasks
        (fun f t htm => countStep_inbox todayStr next7Str projects f t
          (fun hc => (ht t htm hc).1)) (fun _ => 0)]
    omega
  · rw [getFilteredTasks_length]
    unfold getTaskCounts filterStep
    rw [if_neg (by decide : ¬ ("today" : String) = "completed"),
      if_neg (by decide : ¬ ("today" : String) = "next7days"), if_pos rfl,
      (List.countP_eq_length_filter _ _).symm,
      foldl_countStep_eq todayStr next7Str projects "today" _ tasks
        (fun f t htm => countStep_todayKey todayStr next7Str projects f t
          (fun hc => (ht t htm hc).2.1)) (fun _ => 0)]
    omega
  · rw [getFilteredTasks_length]
    unfold getTaskCounts filterStep
    rw [if_neg (by decide : ¬ ("next7days" : String) = "completed"), if_pos rfl,
      (List.countP_eq_length_filter _ _).symm,
      foldl_countStep_eq todayStr next7Str projects "next7days" _ tasks
        (fun f t htm => countStep_next7Key todayStr next7Str projects f t
          (fun hc => (ht t htm hc).2.2)) (fun _ => 0)]
    omega
  · intro p hpm
    obtain ⟨h1, h2, h3, h4, h5⟩ := hp p hpm
    rw [getFilteredTasks_length]
    unfold getTaskCounts filterStep
    rw [if_neg h4, if_neg h3, if_neg h2, if_neg h1, if_pos hpm,
      (List.countP_eq_length_filter _ _).symm,
      foldl_countStep_eq todayStr next7Str projects p _ tasks
        (fun f t _ => countStep_project todayStr next7Str projects f t p
          h1 h2 h3 h5 hpm) (fun _ => 0)]
    omega

/-- Claim C6 witness: the amended equality instantiated at a concrete task
list and project. -/
theorem C6_counts_match_witness :
    getTaskCounts "2025-01-02" "2025-01-09"
        [⟨"t2", "y", "", false, none, .medium, none, [], some "work", [], 0⟩] ["work"] "work"
      = (getFilteredTasks "2025-01-02" "2025-01-09"
          [⟨"t2", "y", "", false, none, .medium, none, [], some "work", [], 0⟩]
          "work" ["work"]).length :=
  (C6_counts_match "2025-01-02" "2025-01-09"
      [⟨"t2", "y", "", false, none, .medium, none, [], some "work", [], 0⟩] ["work"]
      (by decide) (by decide)).2.2.2 "work" (by decide)


/-! ### Claim C1: the heatmap current streak

The Heatmap builds `completionMap` (local calendar day, as an ISO string,
to completion count) and computes `currentStreak` by walking backward one
day at a time.  Days are modelled as integers (consecutive ISO calendar
days differ by one day number) and the populated days of the map as a
`Finset ℤ` — a day is populated exactly when its count is nonzero.  The
unbounded `while` loops walk over distinct days, so fuel `card + 1` never
runs out (proved below). -/

/-- One backward-walking loop from `Heatmap.tsx`: counts consecutive
populated days `d, d-1, d-2, ...`, with explicit fuel. -/
def runAux (s : Finset ℤ) : ℕ → ℤ → ℕ
  | 0, _ => 0
  | fuel + 1, d => if d ∈ s then runAux s fuel (d - 1) + 1 else 0

/-- The loop with enough fuel to never be cut short. -/
def backRun (s : Finset ℤ) (d : ℤ) : ℕ := runAux s (s.card + 1) d

/-- The `currentStreak` computation of `Heatmap.tsx` (lines 73-105): if the
map is empty the streak is 0; if today is populated it is 1 plus the walk
from yesterday; otherwise, if yesterday is populated, it is the walk from
yesterday (the streak is carried over); otherwise 0. -/
def currentStreak (s : Finset ℤ) (today : ℤ) : ℕ :=
  if s = ∅ then 0
  else if today ∈ s then backRun s (today - 1) + 1
  else if (today - 1) ∈ s then backRun s (today - 1)
  else 0

theorem runAux_le (s : Finset ℤ) (fuel : ℕ) (d : ℤ) : runAux s fuel d ≤ fuel := by
  induction fuel generalizing d with
  | zero => simp [runAux]
  | succ f ih =>
    by_cases h : d ∈ s
    · simpa [runAux, h] using ih (d - 1)
    · simp [runAux, h]

theorem runAux_mem (s : Finset ℤ) (fuel : ℕ) (d : ℤ) :
    ∀ k : ℕ, k < runAux s fuel d → (d - k) ∈ s := by
  induction fuel generalizing d with
  | zero => simp [runAux]
  | succ f ih =>
    intro k hk
    by_cases h : d ∈ s
    · simp only [runAux, h, if_true] at hk
      match k with
      | 0 => simpa using h
      | j + 1 =>
        have : (d - 1) - (j : ℤ) ∈ s := ih (d - 1) j (by omega)
        have heq : d - ((j : ℤ) + 1) = (d - 1) - (j : ℤ) := by ring
        rw [Nat.cast_add, Nat.cast_one, heq]
        exact this
    · simp [runAux, h] at hk

theorem runAux_stop (s : Finset ℤ) (fuel : ℕ) (d : ℤ)
    (h : runAux s fuel d < fuel) : (d - (runAux s fuel d : ℤ)) ∉ s := by
  induction fuel generalizing d with
  | zero => omega
  | succ f ih =>
    by_cases hd : d ∈ s
    · simp only [runAux, hd, if_true] at h ⊢
      have hlt : runAux s f (d - 1) < f := by omega
      have := ih (d - 1) hlt
      have heq : d - ((runAux s f (d - 1) : ℤ) + 1) = (d - 1) - (runAux s f (d - 1) : ℤ) := by
        ring
      rw [Nat.cast_add, Nat.cast_one, heq]
      exact this
    · simpa [runAux, hd] using hd

theorem backRun_le_card (s : Finset ℤ) (d : ℤ) : backRun s d ≤ s.card := by
  have hmem : ∀ k ∈ Finset.range (backRun s d), (d - (k : ℤ)) ∈ s := by
    intro k hk
    exact runAux_mem s (s.card + 1) d k (Finset.mem_range.mp hk)
  have hinj : Set.InjOn (fun k : ℕ => d - (k : ℤ)) (Finset.range (backRun s d)) := by
    intro a _ b _ hab
    simp only at hab
    omega
  calc backRun s d = (Finset.range (backRun s d)).card := (Finset.card_range _).symm
    _ ≤ s.card := Finset.card_le_card_of_injOn _ hmem hinj

theorem backRun_mem (s : Finset ℤ) (d : ℤ) :
    ∀ k : ℕ, k < backRun s d → (d - k) ∈ s :=
  runAux_mem s (s.card + 1) d

theorem backRun_stop (s : Finset ℤ) (d : ℤ) : (d - (backRun s d : ℤ)) ∉ s := by
  have h : backRun s d < s.card + 1 := by
    have := backRun_le_card s d
    omega
  exact runAux_stop s (s.card + 1) d h

theorem backRun_pos (s : Finset ℤ) (d : ℤ) (h : d ∈ s) : 1 ≤ backRun s d := by
  simp [backRun, runAux, h]

/-- Claim C1 counterexample: with populated days 0,1,2,4 and today = 5
(no entry for today), the computed current streak is 1 — carried over from
yesterday (day 4) — not 0 as the claim requires. -/
theorem C1_counterexample :
    (5 : ℤ) ∉ ({0, 1, 2, 4} : Finset ℤ) ∧
    currentStreak ({0, 1, 2, 4} : Finset ℤ) 5 = 1 := by
  refine ⟨by decide, by decide⟩

/-- Claim C1 (amended): when today is populated, the current streak is the
length of the maximal run of consecutive populated days ending today (so at
least 1, every day walked over is populated, and the day past the run is
not); when neither today nor yesterday is populated the streak is 0; but
when only yesterday is populated the streak is carried over from yesterday:
it is the maximal run of consecutive populated days ending yesterday. -/
theorem C1_currentStreak_spec (s : Finset ℤ) (today : ℤ) :
    (today ∈ s →
      1 ≤ currentStreak s today ∧
      (∀ k : ℕ, k < currentStreak s today → (today - k) ∈ s) ∧
      (today - (currentStreak s today : ℤ)) ∉ s) ∧
    (today ∉ s → (today - 1) ∉ s → currentStreak s today = 0) ∧
    (today ∉ s → (today - 1) ∈ s →
      1 ≤ currentStreak s today ∧
      (∀ k : ℕ, k < currentStreak s today → ((today - 1) - k) ∈ s) ∧
      ((today - 1) - (currentStreak s today : ℤ)) ∉ s) := by
  refine ⟨?_, ?_, ?_⟩
  · intro htoday
    have hne : s ≠ ∅ := by
      intro h
      rw [h] at htoday
      simp at htoday
    rw [currentStreak, if_neg hne, if_pos htoday]
    refine ⟨by omega, ?_, ?_⟩
    · intro k hk
      match k with
      | 0 => simpa using htoday
      | j + 1 =>
        have : (today - 1) - (j : ℤ) ∈ s := backRun_mem s (today - 1) j (by omega)
        have heq : today - ((j : ℤ) + 1) = (today - 1) - (j : ℤ) := by ring
        rw [Nat.cast_add, Nat.cast_one, heq]
        exact this
    · have := backRun_stop s (today - 1)
      have heq : today - ((backRun s (today - 1) : ℤ) + 1)
          = (today - 1) - (backRun s (today - 1) : ℤ) := by ring
      rw [Nat.cast_add, Nat.cast_one, heq]
      exact this
  · intro h1 h2
    rw [currentStreak]
    by_cases hne : s = ∅
    · rw [if_pos hne]
    · rw [if_neg hne, if_neg h1, if_neg h2]
  · intro h1 h2
    have hne : s ≠ ∅ := by
      intro h
      rw [h] at h2
      simp at h2
    rw [currentStreak, if_neg hne, if_neg h1, if_pos h2]
    exact ⟨backRun_pos s (today - 1) h2, backRun_mem s (today - 1), backRun_stop s (today - 1)⟩

/-- Claim C1 witness: the today-populated clause instantiated on the spec's
example map with today = day 4 (current streak 1). -/
theorem C1_currentStreak_spec_witness :
    1 ≤ currentStreak ({0, 1, 2, 4} : Finset ℤ) 4 ∧
    (∀ k : ℕ, k < currentStreak ({0, 1, 2, 4} : Finset ℤ) 4 →
      ((4 : ℤ) - k) ∈ ({0, 1, 2, 4} : Finset ℤ)) ∧
    ((4 : ℤ) - (currentStreak ({0, 1, 2, 4} : Finset ℤ) 4 : ℤ)) ∉ ({0, 1, 2, 4} : Finset ℤ) :=
  (C1_currentStreak_spec {0, 1, 2, 4} 4).1 (by decide)


/-! ### Claim C9: the focus timer

The timer state in `App.tsx` consists of `focusModeType`, `focusTimeLeft`
(seconds), `focusEndTime` (ms timestamp or null) and `isFocusActive`.
`brk` stands for the `'break'` mode (reserved word).  The tick is the
`setInterval` callback; it receives the wall clock explicitly. -/

inductive TMode where
  | focus
  | brk
deriving DecidableEq, Repr

structure TimerState where
  mode : TMode
  timeLeft : Int
  endTime : Option Int
  active : Bool
deriving DecidableEq, Repr

/-- FOCUS_DEFAULT_SECONDS = 25*60, BREAK_DEFAULT_SECONDS = 5*60. -/
def getDefaultFocusSeconds : TMode → Int
  | .focus => 1500
  | .brk => 300

/-- JS `Math.ceil(a / b)` for integer `a` and positive integer `b`. -/
def jsCeilDiv (a b : Int) : Int := -((-a).fdiv b)

/-- `startTimer` from `App.tsx`: no-op while active; otherwise clamps the
remaining seconds to at least 1 and sets the absolute end timestamp. -/
def startTimer (now : Int) (s : TimerState) : TimerState :=
  if s.active then s
  else
    let startSeconds := max 1 s.timeLeft
    { s with
        timeLeft := startSeconds
        endTime := some (now + startSeconds * 1000)
        active := true }

/-- `pauseTimer` from `App.tsx`: clears the active flag and the end
timestamp; `focusTimeLeft` is not touched (and no clock is read). -/
def pauseTimer (s : TimerState) : TimerState :=
  { s with active := false, endTime := none }

/-- `switchTimerMode` from `App.tsx`. -/
def switchTimerMode (nextMode : TMode) (autoStart : Bool) (now : Int)
    (_s : TimerState) : TimerState :=
  let nextDuration := getDefaultFocusSeconds nextMode
  if autoStart then
    { mode := nextMode, timeLeft := nextDuration,
      endTime := some (now + nextDuration * 1000), active := true }
  else
    { mode := nextMode, timeLeft := nextDuration, endTime := none, active := false }

def oppositeMode : TMode → TMode
  | .focus => .brk
  | .brk => .focus

/-- One interval callback of the timer tick effect in `App.tsx` (lines
213-250): recomputes `diff = ceil((endTime - now)/1000)`; on expiry it
auto-switches to the opposite mode, otherwise it stores `diff` as the
remaining time. -/
def tick (now : Int) (s : TimerState) : TimerState :=
  if s.active then
    match s.endTime with
    | some e =>
      let diff := jsCeilDiv (e - now) 1000
      if diff ≤ 0 then switchTimerMode (oppositeMode s.mode) true now s
      else { s with timeLeft := diff }
    | none => s
  else s

/-- Claim C9 counterexample: `pauseTimer` does not recompute the remaining
time from the clock.  Start a 1500-second timer at time 0 and pause with no
intervening tick: whatever the wall time (say 600000 ms, where the claimed
formula gives 900), the remaining time is still 1500. -/
theorem C9_counterexample :
    (pauseTimer (startTimer 0 ⟨.focus, 1500, none, false⟩)).timeLeft = 1500 ∧
    (startTimer 0 ⟨.focus, 1500, none, false⟩).endTime = some 1500000 ∧
    jsCeilDiv (1500000 - 600000) 1000 = 900 ∧
    (pauseTimer (startTimer 0 ⟨.focus, 1500, none, false⟩)).timeLeft
      ≠ jsCeilDiv (1500000 - 600000) 1000 := by
  refine ⟨by decide, by decide, by decide, by decide⟩

/-- Claim C9 (amended): `pause()` itself reads no clock; it only discards
`endTimestamp` and clears the running flag, keeping the remaining time last
derived by a tick.  Every tick recomputes `remaining =
ceil((endTimestamp - now)/1000)` from the absolute end timestamp, so
pausing at a tick yields exactly that value in an idle state. -/
theorem C9_pause_keeps_tick_value (s : TimerState) (now e : Int)
    (ha : s.active = true) (he : s.endTime = some e)
    (hd : 0 < jsCeilDiv (e - now) 1000) :
    (pauseTimer (tick now s)).timeLeft = jsCeilDiv (e - now) 1000 ∧
    (pauseTimer (tick now s)).endTime = none ∧
    (pauseTimer (tick now s)).active = false := by
  unfold tick pauseTimer
  rw [if_pos ha, he]
  simp only [if_neg (by omega : ¬ jsCeilDiv (e - now) 1000 ≤ 0)]
  exact ⟨by trivial, by trivial, by trivial⟩

theorem jsCeilDiv_pos (a : Int) (h : 0 < a) : 0 < jsCeilDiv a 1000 := by
  unfold jsCeilDiv
  have h1 := Int.fdiv_add_fmod (-a) 1000
  have h2 : 0 ≤ (-a).fmod 1000 := Int.fmod_nonneg' (-a) (by norm_num)
  have h3 := Int.fmod_lt_of_pos (-a) (by norm_num : (0 : Int) < 1000)
  omega

theorem tick_preserves (now : Int) (s : TimerState) (e : Int) (ha : s.active = true)
    (he : s.endTime = some e) (hd : 0 < jsCeilDiv (e - now) 1000) :
    (tick now s).active = true ∧ (tick now s).endTime = some e := by
  unfold tick
  rw [if_pos ha, he]
  simp only [if_neg (by omega : ¬ jsCeilDiv (e - now) 1000 ≤ 0)]
  exact ⟨ha, by trivial⟩

theorem foldTicks (ts : List Int) (e : Int) :
    ∀ s : TimerState, s.active = true → s.endTime = some e →
      (∀ t ∈ ts, 0 < jsCeilDiv (e - t) 1000) →
      (ts.foldl (fun s t => tick t s) s).active = true ∧
        (ts.foldl (fun s t => tick t s) s).endTime = some e := by
  induction ts with
  | nil => exact fun s ha he _ => ⟨ha, he⟩
  | cons t ts ih =>
    intro s ha he hall
    rw [List.foldl_cons]
    have h1 := tick_preserves t s e ha he (hall t (List.mem_cons_self _ _))
    exact ih (tick t s) h1.1 h1.2 fun u hu => hall u (List.mem_cons_of_mem _ hu)

/-- The timer state just before the 1499th tick in the spec scenario:
started at 1500 seconds at time 0, ticked each second through 1498 s. -/
def c9Pre : TimerState :=
  ((List.range 1498).map fun i : Nat => 1000 * ((i : Int) + 1)).foldl
    (fun s t => tick t s) (startTimer 0 ⟨.focus, 1500, none, false⟩)

set_option maxRecDepth 8000 in
/-- Claim C9 witness: the spec scenario — start at 1500 s, tick every
second, pause at 1499 s — leaves remaining = 1. -/
theorem C9_pause_keeps_tick_value_witness :
    (pauseTimer (tick 1499000 c9Pre)).timeLeft = 1 := by
  have hall : ∀ t ∈ (List.range 1498).map fun i : Nat => 1000 * ((i : Int) + 1),
      0 < jsCeilDiv (1500000 - t) 1000 := by
    rw [List.forall_mem_map]
    intro i hi
    apply jsCeilDiv_pos
    have hi2 : i < 1498 := by simpa using hi
    omega
  have hpre := foldTicks ((List.range 1498).map fun i : Nat => 1000 * ((i : Int) + 1)) 1500000
    (startTimer 0 ⟨.focus, 1500, none, false⟩) (by decide) (by decide) hall
  exact (C9_pause_keeps_tick_value c9Pre 1499000 1500000 hpre.1 hpre.2
      (by decide)).1.trans (by decide)


/-! ### The import sanitizer (`taskSanitizer.ts`), claims C3 and C4

Unknown JSON-like input values are modelled by `JValue`.  JS numbers are
`jnum (Option Int)` with `none` for non-finite values (NaN; `Number.isFinite`
is `Option.isSome`).  `null` and `undefined` behave identically in this
code and are both `jnull`.  `createId()` draws from an injective supply
`fresh : Nat → String` with a threaded counter — the model of
`crypto.randomUUID` never repeating; `Date.now()` is the `nowMs`
parameter. -/

inductive JValue where
  | jnull
  | jbool (b : Bool)
  | jnum (v : Option Int)
  | jstr (s : String)
  | jarr (elems : List JValue)
  | jobj (fields : List (String × JValue))

/-- Property read `obj[k]` (first matching key; missing keys give
`undefined`, merged into `jnull`). -/
def jGet (fields : List (String × JValue)) (k : String) : JValue :=
  match fields.find? (fun p => p.1 == k) with
  | some p => p.2
  | none => .jnull

/-- The `!raw || typeof raw !== 'object'` guard: objects pass with their
fields; arrays pass (they are objects) but own none of the accessed string
keys; everything else is rejected. -/
def objFields : JValue → Option (List (String × JValue))
  | .jobj fs => some fs
  | .jarr _ => some []
  | _ => none

/-- JS truthiness (`Boolean(x)`). -/
def jsTruthy : JValue → Bool
  | .jnull => false
  | .jbool b => b
  | .jnum (some z) => decide (z ≠ 0)
  | .jnum none => false
  | .jstr s => decide (s ≠ "")
  | .jarr _ => true
  | .jobj _ => true

/-- JS whitespace for `trim()` and the `\s` character class (ASCII part). -/
def wsChar (c : Char) : Bool :=
  c == ' ' || c == '\t' || c == '\n' || c == '\r' || c == Char.ofNat 11 || c == Char.ofNat 12

def jsTrimList (l : List Char) : List Char :=
  ((l.dropWhile wsChar).reverse.dropWhile wsChar).reverse

/-- JS `String.prototype.trim`. -/
def jsTrim (s : String) : String := ⟨jsTrimList s.data⟩

/-- ASCII `toLowerCase`, as the code only compares ASCII tokens. -/
def toLowerCh (c : Char) : Char :=
  if 'A' ≤ c ∧ c ≤ 'Z' then Char.ofNat (c.toNat + 32) else c

def lowerString (s : String) : String := ⟨s.data.map toLowerCh⟩

/-- ISO_DATE_RE from `taskSanitizer.ts`: `^\d{4}-\d{2}-\d{2}$`. -/
def isIsoDate (s : String) : Bool :=
  match s.data with
  | [y1, y2, y3, y4, h1, m1, m2, h2, d1, d2] =>
    y1.isDigit && y2.isDigit && y3.isDigit && y4.isDigit && (h1 == '-') &&
      m1.isDigit && m2.isDigit && (h2 == '-') && d1.isDigit && d2.isDigit
  | _ => false

def toStrOpt : JValue → Option String
  | .jstr s => some s
  | _ => none

/-- The tag-deduplication fold of `normalizeTags`: blank tags and
case-insensitive repeats are dropped; first-seen casing is kept. -/
def normTagsAux (seen : List String) : List String → List String
  | [] => []
  | t :: rest =>
    if t = "" ∨ lowerString t ∈ seen then normTagsAux seen rest
    else t :: normTagsAux (lowerString t :: seen) rest

/-- `normalizeTags` from `taskSanitizer.ts`. -/
def normalizeTags : JValue → List String
  | .jarr xs => normTagsAux [] ((xs.filterMap toStrOpt).map jsTrim)
  | _ => []

/-- The `typeof id === 'string' && id.trim() ? id : createId()` idiom
shared by `normalizeTask` and `normalizeSubtasks`: keep a provided
non-blank string id, otherwise draw the next fresh id. -/
def pickId (fresh : Nat → String) (n : Nat) (v : JValue) : String × Nat :=
  match v with
  | .jstr s => if jsTrim s ≠ "" then (s, n) else (fresh n, n + 1)
  | _ => (fresh n, n + 1)

/-- The element loop of `normalizeSubtasks`, threading the id supply. -/
def normSubsAux (fresh : Nat → String) : Nat → List JValue → List Subtask × Nat
  | n, [] => ([], n)
  | n, sub :: rest =>
    match objFields sub with
    | none => normSubsAux fresh n rest
    | some fs =>
      let title := match jGet fs "title" with
        | .jstr s => jsTrim s
        | _ => ""
      if title = "" then normSubsAux fresh n rest
      else
        let idn := pickId fresh n (jGet fs "id")
        let rec2 := normSubsAux fresh idn.2 rest
        (⟨idn.1, title, jsTruthy (jGet fs "completed")⟩ :: rec2.1, rec2.2)

/-- `normalizeSubtasks` from `taskSanitizer.ts`. -/
def normalizeSubtasks (fresh : Nat → String) (n : Nat) : JValue → List Subtask × Nat
  | .jarr xs => normSubsAux fresh n xs
  | _ => ([], n)

/-- `normalizeTask` from `taskSanitizer.ts` lines 48-79. -/
def normalizeTask (fresh : Nat → String) (nowMs : Int) (n : Nat) (raw : JValue) :
    Option Task × Nat :=
  match objFields raw with
  | none => (none, n)
  | some fs =>
    let title := match jGet fs "title" with
      | .jstr s => jsTrim s
      | _ => ""
    if title = "" then (none, n)
    else
      let completed := jsTruthy (jGet fs "completed")
      let createdAt := match jGet fs "createdAt" with
        | .jnum (some z) => z
        | _ => nowMs
      let completedAt :=
        if completed then
          match jGet fs "completedAt" with
          | .jnum (some z) => some z
          | _ => none
        else none
      let dueDate := match jGet fs "dueDate" with
        | .jstr s => if isIsoDate s then some s else none
        | _ => none
      let idn := pickId fresh n (jGet fs "id")
      let subsn := normalizeSubtasks fresh idn.2 (jGet fs "subtasks")
      (some
        { id := idn.1
          title := title
          description :=
            match jGet fs "description" with
            | .jstr s => s
            | _ => ""
          completed := completed
          completedAt := completedAt
          priority :=
            match jGet fs "priority" with
            | .jstr s =>
              if s = "high" then .high
              else if s = "medium" then .medium
              else if s = "low" then .low
              else .medium
            | _ => .medium
          dueDate := dueDate
          tags := normalizeTags (jGet fs "tags")
          list :=
            some (match jGet fs "list" with
              | .jstr s => if jsTrim s ≠ "" then jsTrim s else "Inbox"
              | _ => "Inbox")
          subtasks := subsn.1
          createdAt := createdAt }, subsn.2)

/-- The map-and-drop phase of `sanitizeTaskList`. -/
def normListAux (fresh : Nat → String) (nowMs : Int) : Nat → List JValue → List Task × Nat
  | n, [] => ([], n)
  | n, raw :: rest =>
    match normalizeTask fresh nowMs n raw with
    | (some t, n1) =>
      let rest2 := normListAux fresh nowMs n1 rest
      (t :: rest2.1, rest2.2)
    | (none, n1) => normListAux fresh nowMs n1 rest

/-- The duplicate-id rekeying pass of `sanitizeTaskList` (the `seenIds`
set). -/
def dedupAux (fresh : Nat → String) : Nat → List String → List Task → List Task
  | _, _, [] => []
  | n, seen, t :: rest =>
    if t.id ∈ seen then
      { t with id := fresh n } :: dedupAux fresh (n + 1) (fresh n :: seen) rest
    else
      t :: dedupAux fresh n (t.id :: seen) rest

/-- `sanitizeTaskList` from `taskSanitizer.ts` lines 81-100. -/
def sanitizeTaskList (fresh : Nat → String) (nowMs : Int) (v : JValue) :
    Except String (List Task) :=
  match v with
  | .jarr elems =>
    let tsn := normListAux fresh nowMs 0 elems
    .ok (dedupAux fresh tsn.2 [] tsn.1)
  | _ => .error "Invalid format: Expected an array of tasks"

/-- Spec-side: is the top-level value an array. -/
def isJArr : JValue → Bool
  | .jarr _ => true
  | _ => false

/-- Spec-side: the trimmed title a record contributes, or `none` when the
record is malformed (missing, non-string or blank-after-trim title). -/
def specTitleOf (raw : JValue) : Option String :=
  match objFields raw with
  | none => none
  | some fs =>
    match jGet fs "title" with
    | .jstr s => if jsTrim s = "" then none else some (jsTrim s)
    | _ => none

/-- Spec-side: the string id a record carries, if any. -/
def rawIdOf (raw : JValue) : Option String :=
  match objFields raw with
  | none => none
  | some fs =>
    match jGet fs "id" with
    | .jstr s => some s
    | _ => none

def rawIds (elems : List JValue) : List String := elems.filterMap rawIdOf

/-- Property read on a raw record, for stating C4. -/
def jGetOf (raw : JValue) (k : String) : JValue :=
  match objFields raw with
  | some fs => jGet fs k
  | none => .jnull

/-- `Number.isFinite` guard on a raw property. -/
def isFiniteNum : JValue → Bool
  | .jnum (some _) => true
  | _ => false


/-! ### Lemmas for claims C3 and C4 -/

theorem pickId_cases (fresh : Nat → String) (n : Nat) (v : JValue) :
    (∃ s, v = .jstr s ∧ (pickId fresh n v).1 = s ∧ (pickId fresh n v).2 = n) ∨
    ((pickId fresh n v).1 = fresh n ∧ (pickId fresh n v).2 = n + 1) := by
  cases v <;> simp [pickId]
  split <;> simp_all

theorem pickId_mono (fresh : Nat → String) (n : Nat) (v : JValue) :
    n ≤ (pickId fresh n v).2 := by
  rcases pickId_cases fresh n v with ⟨s, _, _, h⟩ | ⟨_, h⟩ <;> omega

theorem normSubsAux_mono (fresh : Nat → String) :
    ∀ (xs : List JValue) (n : Nat), n ≤ (normSubsAux fresh n xs).2 := by
  intro xs
  induction xs with
  | nil => intro n; exact le_refl n
  | cons sub rest ih =>
    intro n
    unfold normSubsAux
    cases objFields sub with
    | none => exact ih n
    | some fs =>
      dsimp only
      split
      · exact ih n
      · exact le_trans (pickId_mono fresh n _) (ih _)

theorem normalizeSubtasks_mono (fresh : Nat → String) (n : Nat) (v : JValue) :
    n ≤ (normalizeSubtasks fresh n v).2 := by
  cases v <;> simp [normalizeSubtasks] <;> try exact le_refl n
  exact normSubsAux_mono fresh _ n


theorem normalizeTask_mono (fresh : Nat → String) (nowMs : Int) (n : Nat) (raw : JValue) :
    n ≤ (normalizeTask fresh nowMs n raw).2 := by
  unfold normalizeTask
  cases objFields raw with
  | none => exact le_refl n
  | some fs =>
    dsimp only
    split
    · exact le_refl n
    · exact le_trans (pickId_mono fresh n _) (normalizeSubtasks_mono fresh _ _)

theorem normalizeTask_fst_title (fresh : Nat → String) (nowMs : Int) (n : Nat) (raw : JValue) :
    ((normalizeTask fresh nowMs n raw).1).map (·.title) = specTitleOf raw := by
  cases h : objFields raw with
  | none => simp [normalizeTask, specTitleOf, h]
  | some fs =>
    cases ht : jGet fs "title" with
    | jstr s =>
      by_cases hts : jsTrim s = "" <;> simp [normalizeTask, specTitleOf, h, ht, hts]
    | jnull => simp [normalizeTask, specTitleOf, h, ht]
    | jbool b => simp [normalizeTask, specTitleOf, h, ht]
    | jnum v => simp [normalizeTask, specTitleOf, h, ht]
    | jarr es => simp [normalizeTask, specTitleOf, h, ht]
    | jobj fs2 => simp [normalizeTask, specTitleOf, h, ht]

theorem normalizeTask_id (fresh : Nat → String) (nowMs : Int) (n : Nat) (raw : JValue)
    (t : Task) (n1 : Nat) (h : normalizeTask fresh nowMs n raw = (some t, n1)) :
    n ≤ n1 ∧ (rawIdOf raw = some t.id ∨ ∃ k, n ≤ k ∧ k < n1 ∧ t.id = fresh k) := by
  cases hobj : objFields raw with
  | none => simp [normalizeTask, hobj] at h
  | some fs =>
    have hmono : n ≤ n1 := by
      have := normalizeTask_mono fresh nowMs n raw
      rw [h] at this
      exact this
    refine ⟨hmono, ?_⟩
    cases ht : jGet fs "title" with
    | jstr s =>
      by_cases hts : jsTrim s = ""
      · simp [normalizeTask, hobj, ht, hts] at h
      · have hids : t.id = (pickId fresh n (jGet fs "id")).1 ∧
            n1 = (normalizeSubtasks fresh (pickId fresh n (jGet fs "id")).2
              (jGet fs "subtasks")).2 := by
          simp [normalizeTask, hobj, ht, hts] at h
          exact ⟨(congrArg Task.id h.1).symm, h.2.symm⟩
        rcases pickId_cases fresh n (jGet fs "id") with ⟨s2, hs2, hfst, hsnd⟩ | ⟨hfst, hsnd⟩
        · left
          simp only [rawIdOf, hobj, hs2, hids.1]
          rw [← hs2, hfst]
        · right
          refine ⟨n, le_refl n, ?_, hids.1.trans hfst⟩
          have h2 := normalizeSubtasks_mono fresh (pickId fresh n (jGet fs "id")).2
            (jGet fs "subtasks")
          omega
    | jnull => simp [normalizeTask, hobj, ht] at h
    | jbool b => simp [normalizeTask, hobj, ht] at h
    | jnum v => simp [normalizeTask, hobj, ht] at h
    | jarr es => simp [normalizeTask, hobj, ht] at h
    | jobj fs2 => simp [normalizeTask, hobj, ht] at h


theorem normListAux_mono (fresh : Nat → String) (nowMs : Int) :
    ∀ (elems : List JValue) (n : Nat), n ≤ (normListAux fresh nowMs n elems).2 := by
  intro elems
  induction elems with
  | nil => intro n; exact le_refl n
  | cons raw rest ih =>
    intro n
    have h1 := normalizeTask_mono fresh nowMs n raw
    unfold normListAux
    rcases hx : normalizeTask fresh nowMs n raw with ⟨ot, n1⟩
    rw [hx] at h1
    cases ot with
    | some t =>
      dsimp only
      exact le_trans h1 (ih n1)
    | none =>
      dsimp only
      exact le_trans h1 (ih n1)

theorem normListAux_titles (fresh : Nat → String) (nowMs : Int) :
    ∀ (elems : List JValue) (n : Nat),
      ((normListAux fresh nowMs n elems).1).map (·.title) = elems.filterMap specTitleOf := by
  intro elems
  induction elems with
  | nil => intro n; simp [normListAux]
  | cons raw rest ih =>
    intro n
    have hx := normalizeTask_fst_title fresh nowMs n raw
    unfold normListAux
    rcases hnt : normalizeTask fresh nowMs n raw with ⟨ot, n1⟩
    rw [hnt] at hx
    cases ot with
    | some t =>
      dsimp only at hx ⊢
      rw [List.filterMap_cons, ← hx]
      simp [ih n1]
    | none =>
      dsimp only at hx ⊢
      rw [List.filterMap_cons, ← hx]
      simp [ih n1]

theorem normListAux_ids (fresh : Nat → String) (nowMs : Int) :
    ∀ (elems : List JValue) (n : Nat) (t : Task),
      t ∈ (normListAux fresh nowMs n elems).1 →
      t.id ∈ rawIds elems ∨ ∃ k, k < (normListAux fresh nowMs n elems).2 ∧ t.id = fresh k := by
  intro elems
  induction elems with
  | nil => intro n t ht; simp [normListAux] at ht
  | cons raw rest ih =>
    intro n t ht
    unfold normListAux at ht ⊢
    rcases hnt : normalizeTask fresh nowMs n raw with ⟨ot, n1⟩
    rw [hnt] at ht
    cases ot with
    | some u =>
      dsimp only at ht ⊢
      rcases List.mem_cons.mp ht with rfl | hmem
      · rcases (normalizeTask_id fresh nowMs n raw t n1 hnt).2 with hid | ⟨k, _, hk2, hk3⟩
        · left
          exact List.mem_filterMap.mpr ⟨raw, List.mem_cons_self _ _, hid⟩
        · right
          have := normListAux_mono fresh nowMs rest n1
          exact ⟨k, by omega, hk3⟩
      · rcases ih n1 t hmem with hid | ⟨k, hk1, hk2⟩
        · left
          rcases List.mem_filterMap.mp hid with ⟨raw2, hr1, hr2⟩
          exact List.mem_filterMap.mpr ⟨raw2, List.mem_cons_of_mem _ hr1, hr2⟩
        · right
          exact ⟨k, hk1, hk2⟩
    | none =>
      dsimp only at ht ⊢
      rcases ih n1 t ht with hid | ⟨k, hk1, hk2⟩
      · left
        rcases List.mem_filterMap.mp hid with ⟨raw2, hr1, hr2⟩
        exact List.mem_filterMap.mpr ⟨raw2, List.mem_cons_of_mem _ hr1, hr2⟩
      · right
        exact ⟨k, hk1, hk2⟩

theorem dedupAux_map_title (fresh : Nat → String) :
    ∀ (ts : List Task) (n : Nat) (seen : List String),
      (dedupAux fresh n seen ts).map (·.title) = ts.map (·.title) := by
  intro ts
  induction ts with
  | nil => intro n seen; rfl
  | cons t rest ih =>
    intro n seen
    by_cases h : t.id ∈ seen <;> simp [dedupAux, h, ih]

theorem dedupAux_good (fresh : Nat → String)
    (hinj : ∀ i j, fresh i = fresh j → i = j) (B : List String)
    (hB : ∀ k, fresh k ∉ B) :
    ∀ (ts : List Task) (n : Nat) (seen : List String),
      (∀ x ∈ seen, x ∈ B ∨ ∃ k, k < n ∧ x = fresh k) →
      (∀ t ∈ ts, t.id ∈ B ∨ ∃ k, k < n ∧ t.id = fresh k) →
      ((dedupAux fresh n seen ts).map (·.id)).Nodup ∧
        ∀ x ∈ (dedupAux fresh n seen ts).map (·.id), x ∉ seen := by
  intro ts
  induction ts with
  | nil => intro n seen _ _; exact ⟨by simp [dedupAux], by simp [dedupAux]⟩
  | cons t rest ih =>
    intro n seen hseen hts
    by_cases hmem : t.id ∈ seen
    · have hseen2 : ∀ x ∈ fresh n :: seen, x ∈ B ∨ ∃ k, k < n + 1 ∧ x = fresh k := by
        intro x hx
        rcases List.mem_cons.mp hx with rfl | hx2
        · exact Or.inr ⟨n, by omega, rfl⟩
        · rcases hseen x hx2 with h | ⟨k, hk1, hk2⟩
          · exact Or.inl h
          · exact Or.inr ⟨k, by omega, hk2⟩
      have hts2 : ∀ u ∈ rest, u.id ∈ B ∨ ∃ k, k < n + 1 ∧ u.id = fresh k := by
        intro u hu
        rcases hts u (List.mem_cons_of_mem _ hu) with h | ⟨k, hk1, hk2⟩
        · exact Or.inl h
        · exact Or.inr ⟨k, by omega, hk2⟩
      have hrec := ih (n + 1) (fresh n :: seen) hseen2 hts2
      have hfresh_notin : fresh n ∉ seen := by
        intro hx
        rcases hseen (fresh n) hx with h | ⟨k, hk1, hk2⟩
        · exact hB n h
        · have := hinj n k hk2
          omega
      simp only [dedupAux, if_pos hmem, List.map_cons]
      constructor
      · refine List.Nodup.cons ?_ hrec.1
        intro hx
        exact hrec.2 (fresh n) hx (List.mem_cons_self _ _)
      · intro x hx
        rcases List.mem_cons.mp hx with rfl | hx2
        · exact hfresh_notin
        · intro hxs
          exact hrec.2 x hx2 (List.mem_cons_of_mem _ hxs)
    · have hseen2 : ∀ x ∈ t.id :: seen, x ∈ B ∨ ∃ k, k < n ∧ x = fresh k := by
        intro x hx
        rcases List.mem_cons.mp hx with rfl | hx2
        · exact hts t (List.mem_cons_self _ _)
        · exact hseen x hx2
      have hts2 : ∀ u ∈ rest, u.id ∈ B ∨ ∃ k, k < n ∧ u.id = fresh k :=
        fun u hu => hts u (List.mem_cons_of_mem _ hu)
      have hrec := ih n (t.id :: seen) hseen2 hts2
      simp only [dedupAux, if_neg hmem, List.map_cons]
      constructor
      · refine List.Nodup.cons ?_ hrec.1
        intro hx
        exact hrec.2 t.id hx (List.mem_cons_self _ _)
      · intro x hx
        rcases List.mem_cons.mp hx with rfl | hx2
        · exact hmem
        · intro hxs
          exact hrec.2 x hx2 (List.mem_cons_of_mem _ hxs)


/-- Claim C3: `sanitizeTaskList` fails exactly when the top-level value is
not an array; on an array it returns, in order, exactly the records whose
title is a string that is non-blank after trimming (their titles trimmed),
and — when the fresh-id supply is injective and never collides with a
provided id, the model of `crypto.randomUUID` — the returned ids are
pairwise distinct. -/
theorem C3_sanitize (fresh : Nat → String) (nowMs : Int) (v : JValue) :
    ((sanitizeTaskList fresh nowMs v).isOk = isJArr v) ∧
    (∀ elems ts, v = .jarr elems → sanitizeTaskList fresh nowMs v = .ok ts →
      ts.map (·.title) = elems.filterMap specTitleOf ∧
      ((∀ i j, fresh i = fresh j → i = j) → (∀ k, fresh k ∉ rawIds elems) →
        (ts.map (·.id)).Nodup)) := by
  constructor
  · cases v <;> simp [sanitizeTaskList, isJArr, Except.isOk, Except.toBool]
  · intro elems ts hv hok
    subst hv
    simp only [sanitizeTaskList] at hok
    have hts : ts = dedupAux fresh (normListAux fresh nowMs 0 elems).2 []
        (normListAux fresh nowMs 0 elems).1 := by
      cases hok
      rfl
    constructor
    · rw [hts, dedupAux_map_title, normListAux_titles]
    · intro hinj hfresh
      rw [hts]
      refine (dedupAux_good fresh hinj (rawIds elems) hfresh
        (normListAux fresh nowMs 0 elems).1 (normListAux fresh nowMs 0 elems).2 []
        ?_ ?_).1
      · intro x hx
        simp at hx
      · intro t ht
        exact normListAux_ids fresh nowMs elems 0 t ht

/-- A concrete injective id supply for witnesses: k ↦ "x"·(k+1). -/
def xfresh (k : Nat) : String := ⟨List.replicate (k + 1) 'x'⟩

theorem xfresh_inj : ∀ i j, xfresh i = xfresh j → i = j := by
  intro i j h
  have h2 := congrArg (fun s => s.data.length) h
  simpa [xfresh] using h2

/-- Input records for the C3 witness: two valid records sharing id "dup"
and one malformed record (a bare number). -/
def c3Elems : List JValue :=
  [.jobj [("title", .jstr " a "), ("id", .jstr "dup")],
   .jobj [("title", .jstr "b"), ("id", .jstr "dup")],
   .jnum (some 3)]

theorem xfresh_notin_c3 : ∀ k, xfresh k ∉ rawIds c3Elems := by
  intro k hk
  have hids : rawIds c3Elems = ["dup", "dup"] := by decide
  rw [hids] at hk
  have hdup : xfresh k = "dup" := by
    rcases List.mem_cons.mp hk with h | h
    · exact h
    · simpa using h
  have hdata := congrArg String.data hdup
  simp only [xfresh] at hdata
  have hlen := congrArg List.length hdata
  simp at hlen
  subst hlen
  simp at hdata

/-- Claim C3 witness: the sanitizer accepts the array, keeps the two titled
records with trimmed titles, drops the number, and rekeys the duplicate id. -/
theorem C3_sanitize_witness :
    ((sanitizeTaskList xfresh 0 (.jarr c3Elems)).isOk = isJArr (.jarr c3Elems)) ∧
    (∀ ts, sanitizeTaskList xfresh 0 (.jarr c3Elems) = .ok ts →
      ts.map (·.title) = ["a", "b"] ∧ (ts.map (·.id)).Nodup) := by
  have h := C3_sanitize xfresh 0 (.jarr c3Elems)
  refine ⟨h.1, ?_⟩
  intro ts hok
  have h2 := h.2 c3Elems ts rfl hok
  refine ⟨h2.1.trans (by decide), h2.2 xfresh_inj xfresh_notin_c3⟩


theorem normalizeTask_completedAt (fresh : Nat → String) (nowMs : Int) (n : Nat)
    (raw : JValue) (t : Task) (n1 : Nat)
    (h : normalizeTask fresh nowMs n raw = (some t, n1)) :
    (t.completedAt.isSome = true → t.completed = true) ∧
    (t.completed = true →
      (t.completedAt.isSome = true ↔ isFiniteNum (jGetOf raw "completedAt") = true)) := by
  cases hobj : objFields raw with
  | none => simp [normalizeTask, hobj] at h
  | some fs =>
    cases ht : jGet fs "title" with
    | jstr s =>
      by_cases hts : jsTrim s = ""
      · simp [normalizeTask, hobj, ht, hts] at h
      · have hc : t.completed = jsTruthy (jGet fs "completed") ∧
            t.completedAt = (if jsTruthy (jGet fs "completed") then
              match jGet fs "completedAt" with
              | .jnum (some z) => some z
              | _ => none
            else none) := by
          simp [normalizeTask, hobj, ht, hts] at h
          exact ⟨(congrArg Task.completed h.1).symm, (congrArg Task.completedAt h.1).symm⟩
        have hgo : jGetOf raw "completedAt" = jGet fs "completedAt" := by
          simp [jGetOf, hobj]
        rw [hgo]
        by_cases hcb : jsTruthy (jGet fs "completed")
        · constructor
          · intro _
            rw [hc.1, hcb]
          · intro _
            rw [hc.2, if_pos hcb]
            cases hca : jGet fs "completedAt" with
            | jnum v => cases v <;> simp [isFiniteNum]
            | jnull => simp [isFiniteNum]
            | jbool b => simp [isFiniteNum]
            | jstr s2 => simp [isFiniteNum]
            | jarr es => simp [isFiniteNum]
            | jobj fs2 => simp [isFiniteNum]
        · constructor
          · intro hsome
            rw [hc.2, if_neg hcb] at hsome
            simp at hsome
          · intro hcompl
            rw [hc.1] at hcompl
            exact absurd hcompl hcb
    | jnull => simp [normalizeTask, hobj, ht] at h
    | jbool b => simp [normalizeTask, hobj, ht] at h
    | jnum v => simp [normalizeTask, hobj, ht] at h
    | jarr es => simp [normalizeTask, hobj, ht] at h
    | jobj fs2 => simp [normalizeTask, hobj, ht] at h

theorem normListAux_completedAt (fresh : Nat → String) (nowMs : Int) :
    ∀ (elems : List JValue) (n : Nat) (t : Task),
      t ∈ (normListAux fresh nowMs n elems).1 →
      t.completedAt.isSome = true → t.completed = true := by
  intro elems
  induction elems with
  | nil => intro n t ht; simp [normListAux] at ht
  | cons raw rest ih =>
    intro n t ht
    unfold normListAux at ht
    rcases hnt : normalizeTask fresh nowMs n raw with ⟨ot, n1⟩
    rw [hnt] at ht
    cases ot with
    | some u =>
      dsimp only at ht
      rcases List.mem_cons.mp ht with rfl | hmem
      · exact (normalizeTask_completedAt fresh nowMs n raw t n1 hnt).1
      · exact ih n1 t hmem
    | none =>
      dsimp only at ht
      exact ih n1 t ht

theorem dedupAux_fields (fresh : Nat → String) :
    ∀ (ts : List Task) (n : Nat) (seen : List String) (u : Task),
      u ∈ dedupAux fresh n seen ts →
      ∃ t ∈ ts, u.completed = t.completed ∧ u.completedAt = t.completedAt := by
  intro ts
  induction ts with
  | nil => intro n seen u hu; simp [dedupAux] at hu
  | cons t rest ih =>
    intro n seen u hu
    by_cases h : t.id ∈ seen
    · simp only [dedupAux, if_pos h] at hu
      rcases List.mem_cons.mp hu with heq | hmem
      · exact ⟨t, List.mem_cons_self _ _, by rw [heq], by rw [heq]⟩
      · rcases ih _ _ u hmem with ⟨t2, ht2, hf⟩
        exact ⟨t2, List.mem_cons_of_mem _ ht2, hf⟩
    · simp only [dedupAux, if_neg h] at hu
      rcases List.mem_cons.mp hu with heq | hmem
      · exact ⟨t, List.mem_cons_self _ _, by rw [heq], by rw [heq]⟩
      · rcases ih _ _ u hmem with ⟨t2, ht2, hf⟩
        exact ⟨t2, List.mem_cons_of_mem _ ht2, hf⟩

/-- Claim C4 counterexample: an array whose single record has
`completed: true` but no numeric `completedAt` is accepted, and the
resulting task has `completed = true` with `completedAt` unset — violating
the claimed "if and only if" invariant. -/
theorem C4_counterexample :
    (sanitizeTaskList xfresh 0
        (.jarr [.jobj [("title", .jstr "a"), ("completed", .jbool true)]])).toOption
      = some [⟨"x", "a", "", true, none, .medium, none, [], some "Inbox", [], 0⟩] ∧
    (⟨"x", "a", "", true, none, .medium, none, [], some "Inbox", [], 0⟩ : Task).completed = true ∧
    (⟨"x", "a", "", true, none, .medium, none, [], some "Inbox", [], 0⟩ : Task).completedAt
      = none := by
  refine ⟨by decide, by decide, by decide⟩

/-- Claim C4 (amended): every task produced by `sanitizeTaskList` has
`completedAt` set only if `completed` is true; and for a completed record,
`completedAt` is set iff the input record carried a finite numeric
`completedAt` (a completed record without one yields `completedAt` unset
rather than being repaired). -/
theorem C4_completedAt (fresh : Nat → String) (nowMs : Int) :
    (∀ v ts, sanitizeTaskList fresh nowMs v = .ok ts →
      ∀ t ∈ ts, t.completedAt.isSome = true → t.completed = true) ∧
    (∀ n raw t n1, normalizeTask fresh nowMs n raw = (some t, n1) →
      t.completed = true →
      (t.completedAt.isSome = true ↔ isFiniteNum (jGetOf raw "completedAt") = true)) := by
  constructor
  · intro v ts hok t ht hsome
    cases v with
    | jarr elems =>
      simp only [sanitizeTaskList] at hok
      have hts : ts = dedupAux fresh (normListAux fresh nowMs 0 elems).2 []
          (normListAux fresh nowMs 0 elems).1 := by
        cases hok
        rfl
      rw [hts] at ht
      rcases dedupAux_fields fresh _ _ _ t ht with ⟨t2, ht2, hcf, haf⟩
      rw [haf] at hsome
      rw [hcf]
      exact normListAux_completedAt fresh nowMs elems 0 t2 ht2 hsome
    | jnull => simp [sanitizeTaskList] at hok
    | jbool b => simp [sanitizeTaskList] at hok
    | jnum v2 => simp [sanitizeTaskList] at hok
    | jstr s => simp [sanitizeTaskList] at hok
    | jobj fs => simp [sanitizeTaskList] at hok
  · intro n raw t n1 h hc
    exact (normalizeTask_completedAt fresh nowMs n raw t n1 h).2 hc

/-- Claim C4 witness: a completed record carrying a finite numeric
`completedAt` keeps it. -/
theorem C4_completedAt_witness :
    (⟨"x", "a", "", true, some 5, .medium, none, [], some "Inbox", [], 0⟩ : Task).completedAt.isSome
        = true ↔
      isFiniteNum (jGetOf (.jobj [("title", .jstr "a"), ("completed", .jbool true),
        ("completedAt", .jnum (some 5))]) "completedAt") = true :=
  (C4_completedAt xfresh 0).2 0
    (.jobj [("title", .jstr "a"), ("completed", .jbool true), ("completedAt", .jnum (some 5))])
    ⟨"x", "a", "", true, some 5, .medium, none, [], some "Inbox", [], 0⟩ 1 (by decide) (by decide)


/-! ### The free-text command parsing of `TaskInput.tsx`, claims C7, C8, C10

Strings are char lists.  Regexes are modelled as left-to-right scanners in
exactly the source's replace/match order: only the first priority marker is
removed (`priorityRegex` has no `g` flag), while tag tokens, project tokens
and date keywords are stripped globally.  `DateEnv` carries the ISO dates
the source derives from the local clock (`today`, `today+1`, the upcoming
Monday). -/

/-- The `[^\s#@!]` token character class of the tag and project regexes. -/
def allowedTokChar (c : Char) : Bool :=
  !wsChar c && !(c == '#') && !(c == '@') && !(c == '!')

def allowedHead : List Char → Bool
  | [] => false
  | c :: _ => allowedTokChar c

/-- The `\w` word character class (for `\b` word boundaries). -/
def isWordChar (c : Char) : Bool :=
  ('a' ≤ c && c ≤ 'z') || ('A' ≤ c && c ≤ 'Z') || ('0' ≤ c && c ≤ '9') || c == '_'

def wordHead : List Char → Bool
  | [] => false
  | c :: _ => isWordChar c

/-- Case-insensitive prefix test against a lowercase pattern. -/
def startsCI : List Char → List Char → Bool
  | [], _ => true
  | _ :: _, [] => false
  | p :: ps, c :: cs => (toLowerCh c == p) && startsCI ps cs

def hiChars : List Char := ['h', 'i', 'g', 'h']

def medChars : List Char := ['m', 'e', 'd', 'i', 'u', 'm']

def loChars : List Char := ['l', 'o', 'w']

/-- The first (leftmost) match of `/!(high|medium|low)/i`. -/
def findPriority : List Char → Option Priority
  | [] => none
  | c :: rest =>
    if c == '!' then
      if startsCI hiChars rest then some .high
      else if startsCI medChars rest then some .medium
      else if startsCI loChars rest then some .low
      else findPriority rest
    else findPriority rest

/-- `.replace(priorityRegex, '')` — no `g` flag, so only the first match is
removed. -/
def stripFirstPriority : List Char → List Char
  | [] => []
  | c :: rest =>
    if c == '!' then
      if startsCI hiChars rest then rest.drop 4
      else if startsCI medChars rest then rest.drop 6
      else if startsCI loChars rest then rest.drop 3
      else c :: stripFirstPriority rest
    else c :: stripFirstPriority rest

/-- Global removal of `m<token>` matches (`m` is `'#'` for the tag regex and
`'@'` for the project regex), as a two-state scanner: the `true` state is
"inside a token being deleted".  Mirrors the left-to-right, non-overlapping
semantics of `String.replace` with a `g` regex. -/
def stripToks (m : Char) : Bool → List Char → List Char
  | _, [] => []
  | true, c :: rest =>
    if allowedTokChar c then stripToks m true rest
    else if c == m && allowedHead rest then stripToks m true rest
    else c :: stripToks m false rest
  | false, c :: rest =>
    if c == m && allowedHead rest then stripToks m true rest
    else c :: stripToks m false rest

/-- All `#token` captures of `text.matchAll(tagRegex)`, in order. -/
def tagMatchesAux : Option (List Char) → List Char → List (List Char)
  | none, [] => []
  | some acc, [] => [acc.reverse]
  | none, c :: rest =>
    if c == '#' && allowedHead rest then tagMatchesAux (some []) rest
    else tagMatchesAux none rest
  | some acc, c :: rest =>
    if allowedTokChar c then tagMatchesAux (some (c :: acc)) rest
    else
      acc.reverse ::
        (if c == '#' && allowedHead rest then tagMatchesAux (some []) rest
         else tagMatchesAux none rest)

/-- `Array.from(new Set(...))`: exact-match dedup keeping first occurrences. -/
def dedupExact (seen : List (List Char)) : List (List Char) → List (List Char)
  | [] => []
  | t :: rest =>
    if t ∈ seen then dedupExact seen rest
    else t :: dedupExact (t :: seen) rest

/-- The first `@token` capture of `text.match(projectRegex)`. -/
def projMatchFirst : List Char → Option (List Char)
  | [] => none
  | c :: rest =>
    if c == '@' && allowedHead rest then some (rest.takeWhile allowedTokChar)
    else projMatchFirst rest

def todayChars : List Char := ['t', 'o', 'd', 'a', 'y']

def todChars : List Char := ['t', 'o', 'd']

def tomorrowChars : List Char := ['t', 'o', 'm', 'o', 'r', 'r', 'o', 'w']

def tmrChars : List Char := ['t', 'm', 'r']

def tomChars : List Char := ['t', 'o', 'm']

def nextWeekChars : List Char := ['n', 'e', 'x', 't', ' ', 'w', 'e', 'e', 'k']

/-- First alternative of `today|tod|tomorrow|tmr|tom|next week` matching at
the head of `l` with a word boundary after it; returns the match length. -/
def kwMatchLen (l : List Char) : Option Nat :=
  if startsCI todayChars l && !wordHead (l.drop 5) then some 5
  else if startsCI todChars l && !wordHead (l.drop 3) then some 3
  else if startsCI tomorrowChars l && !wordHead (l.drop 8) then some 8
  else if startsCI tmrChars l && !wordHead (l.drop 3) then some 3
  else if startsCI tomChars l && !wordHead (l.drop 3) then some 3
  else if startsCI nextWeekChars l && !wordHead (l.drop 9) then some 9
  else none

/-- Whole-word test `\b(kw…)\b` of one keyword group anywhere in the (already
lowercased) text; `prevWord` tracks the word-character status of the
previous character for the leading boundary. -/
def hasKW (kws : List (List Char)) : Bool → List Char → Bool
  | _, [] => false
  | prevWord, c :: rest =>
    ((!prevWord) &&
      kws.any fun kw => startsCI kw (c :: rest) && !wordHead ((c :: rest).drop kw.length)) ||
    hasKW kws (isWordChar c) rest

/-- Global removal of word-bounded date keywords
(`/\b(today|tod|tomorrow|tmr|tom|next week)\b/gi`): `skip` counts characters
of a match still to delete (keyword characters are all word characters at
the end of a match, so `prevWord` is `true` while skipping). -/
def dateStripAux (skip : Nat) (prevWord : Bool) : List Char → List Char
  | [] => []
  | c :: rest =>
    if skip > 0 then dateStripAux (skip - 1) prevWord rest
    else if !prevWord then
      match kwMatchLen (c :: rest) with
      | some k => dateStripAux (k - 1) true rest
      | none => c :: dateStripAux 0 (isWordChar c) rest
    else c :: dateStripAux 0 (isWordChar c) rest

/-- `.replace(/\s+/g, ' ')`: each maximal whitespace run becomes one space
(`inRun` = already emitted the space for the current run). -/
def collapseAux : Bool → List Char → List Char
  | _, [] => []
  | inRun, c :: rest =>
    if wsChar c then
      if inRun then collapseAux true rest else ' ' :: collapseAux true rest
    else c :: collapseAux false rest

/-- The local-clock dates the parser can emit. -/
structure DateEnv where
  todayStr : String
  tomorrowStr : String
  nextWeekStr : String
deriving DecidableEq, Repr

structure ParseResult where
  priority : Option Priority
  tags : List (List Char)
  dueDate : Option String
  projectFound : Option String
  cleanTitle : List Char
deriving DecidableEq, Repr

/-- `parseTaskInput` from `TaskInput.tsx` lines 62-121: priority (first
match), all tags (exact-dedup, trimmed, non-blank), first `@token` resolved
case-insensitively against known projects, date keyword detection on the
lowercased text (first rule group wins), and the clean title obtained by
stripping the first priority marker, all tag tokens, all project tokens and
all date keywords, collapsing whitespace and trimming. -/
def parseTaskInput (env : DateEnv) (projects : List String) (text : List Char) :
    ParseResult :=
  { priority := findPriority text
    tags := dedupExact []
      (((tagMatchesAux none text).map jsTrimList).filter fun t => decide (t ≠ []))
    dueDate :=
      if hasKW [todayChars, todChars] false (text.map toLowerCh) then some env.todayStr
      else if hasKW [tomorrowChars, tmrChars, tomChars] false (text.map toLowerCh) then
        some env.tomorrowStr
      else if hasKW [nextWeekChars] false (text.map toLowerCh) then some env.nextWeekStr
      else none
    projectFound := (projMatchFirst text).bind fun tok =>
      projects.find? fun p => lowerString p == lowerString ⟨tok⟩
    cleanTitle := jsTrimList (collapseAux false (dateStripAux 0 false
      (stripToks '@' false (stripToks '#' false (stripFirstPriority text))))) }

/-- The payload `submit` passes to `onAddTask` (`TaskInput.tsx` lines
137-156), without the caller-assigned `id`/`createdAt`. -/
structure TaskDraft where
  title : List Char
  description : List Char
  completed : Bool
  priority : Priority
  tags : List (List Char)
  subtasks : List Subtask
  dueDate : Option String
  list : String
deriving DecidableEq, Repr

/-- JS `a || b` for an optional string (empty string is falsy). -/
def jsOrStr (o : Option String) (dflt : String) : String :=
  match o with
  | some s => if s = "" then dflt else s
  | none => dflt

/-- `submit` from `TaskInput.tsx`: no task on blank input; otherwise the
clean title (falling back to the raw input), priority defaulting to MEDIUM,
and the due date defaulting to today's local date when no date keyword was
parsed. -/
def submitDraft (env : DateEnv) (projects : List String) (selectedProject : String)
    (input : List Char) : Option TaskDraft :=
  if jsTrimList input = [] then none
  else
    let parsed := parseTaskInput env projects input
    some
      { title := if parsed.cleanTitle = [] then input else parsed.cleanTitle
        description := []
        completed := false
        priority := parsed.priority.getD .medium
        tags := parsed.tags
        subtasks := []
        dueDate := some (jsOrStr parsed.dueDate env.todayStr)
        list := selectedProject }

/-- A fixed date environment for concrete parser instances. -/
def denv : DateEnv := ⟨"2025-10-12", "2025-10-13", "2025-10-20"⟩



/-! ### Claim C7: the priority marker -/

/-- Spec-side positional view of the priority regex: the marker starting at
position `i` (the alternation tried in source order). -/
def markerAt (l : List Char) (i : Nat) : Option Priority :=
  match l.drop i with
  | [] => none
  | c :: rest =>
    if c == '!' then
      if startsCI hiChars rest then some .high
      else if startsCI medChars rest then some .medium
      else if startsCI loChars rest then some .low
      else none
    else none

theorem findPriority_of_markerAt :
    ∀ (l : List Char) (i : Nat) (p : Priority), markerAt l i = some p →
      (∀ j, j < i → markerAt l j = none) → findPriority l = some p := by
  intro l
  induction l with
  | nil => intro i p hp _; simp [markerAt] at hp
  | cons c rest ih =>
    intro i p hp hearlier
    cases i with
    | zero =>
      unfold markerAt at hp
      simp only [List.drop_zero] at hp
      unfold findPriority
      by_cases hc : c == '!'
      · rw [if_pos hc] at hp ⊢
        by_cases h1 : startsCI hiChars rest
        · rw [if_pos h1] at hp ⊢
          exact hp
        · rw [if_neg h1] at hp ⊢
          by_cases h2 : startsCI medChars rest
          · rw [if_pos h2] at hp ⊢
            exact hp
          · rw [if_neg h2] at hp ⊢
            by_cases h3 : startsCI loChars rest
            · rw [if_pos h3] at hp ⊢
              exact hp
            · rw [if_neg h3] at hp
              exact absurd hp (by simp)
      · rw [if_neg hc] at hp
        exact absurd hp (by simp)
    | succ i2 =>
      have h0 := hearlier 0 (Nat.succ_pos i2)
      unfold markerAt at h0
      simp only [List.drop_zero] at h0
      have hp2 : markerAt rest i2 = some p := hp
      have hearlier2 : ∀ j, j < i2 → markerAt rest j = none := by
        intro j hj
        exact hearlier (j + 1) (by omega)
      have hrec := ih i2 p hp2 hearlier2
      unfold findPriority
      by_cases hc : c == '!'
      · rw [if_pos hc]
        rw [if_pos hc] at h0
        by_cases h1 : startsCI hiChars rest
        · rw [if_pos h1] at h0
          exact absurd h0 (by simp)
        · rw [if_neg h1] at h0 ⊢
          by_cases h2 : startsCI medChars rest
          · rw [if_pos h2] at h0
            exact absurd h0 (by simp)
          · rw [if_neg h2] at h0 ⊢
            by_cases h3 : startsCI loChars rest
            · rw [if_pos h3] at h0
              exact absurd h0 (by simp)
            · rw [if_neg h3]
              exact hrec
      · rw [if_neg hc]
        exact hrec

/-- Claim C7 counterexample: `"!low !high"` contains `!high` (a marker match
at position 5), yet the parsed priority is LOW — the leftmost marker wins. -/
theorem C7_counterexample :
    markerAt ("!low !high".toList) 5 = some Priority.high ∧
    (parseTaskInput denv [] ("!low !high".toList)).priority = some Priority.low ∧
    some Priority.low ≠ some Priority.high := by
  refine ⟨by decide, by decide, by decide⟩

/-- Claim C7 (amended): the leftmost priority marker determines the parsed
priority; in particular, for every input in which a `!high` marker occurs
at a position before which no marker occurs, the output priority is HIGH. -/
theorem C7_high_when_leftmost (env : DateEnv) (projects : List String)
    (l : List Char) (i : Nat) (hhit : markerAt l i = some Priority.high)
    (hearlier : ∀ j, j < i → markerAt l j = none) :
    (parseTaskInput env projects l).priority = some Priority.high :=
  findPriority_of_markerAt l i Priority.high hhit hearlier

/-- Claim C7 witness: `"do !high stuff"` has its leftmost marker at
position 3 and parses as HIGH. -/
theorem C7_high_when_leftmost_witness :
    (parseTaskInput denv [] ("do !high stuff".toList)).priority = some Priority.high :=
  C7_high_when_leftmost denv [] ("do !high stuff".toList) 3 (by decide) (by decide)

/-! ### Claim C10: the submit path always sets a due date -/

/-- Claim C10: every task created through the submit path has a due date
set, and when the parser extracted no date keyword the due date defaults to
today's local date. -/
theorem C10_submit_dueDate (env : DateEnv) (projects : List String) (sel : String)
    (input : List Char) (d : TaskDraft)
    (h : submitDraft env projects sel input = some d) :
    d.dueDate.isSome = true ∧
    ((parseTaskInput env projects input).dueDate = none → d.dueDate = some env.todayStr) := by
  unfold submitDraft at h
  split at h
  · exact absurd h (by simp)
  · have hd : d.dueDate
        = some (jsOrStr (parseTaskInput env projects input).dueDate env.todayStr) := by
      cases h
      rfl
    constructor
    · rw [hd]
      rfl
    · intro hnone
      rw [hd, hnone]
      rfl

/-- Claim C10 witness: `"buy milk"` has no date keyword and its draft's due
date is today's local date. -/
theorem C10_submit_dueDate_witness :
    (⟨"buy milk".toList, [], false, .medium, [], [], some "2025-10-12",
        "Inbox"⟩ : TaskDraft).dueDate.isSome = true ∧
    (⟨"buy milk".toList, [], false, .medium, [], [], some "2025-10-12",
        "Inbox"⟩ : TaskDraft).dueDate = some denv.todayStr :=
  have h := C10_submit_dueDate denv [] "Inbox" ("buy milk".toList)
    ⟨"buy milk".toList, [], false, .medium, [], [], some "2025-10-12", "Inbox"⟩ (by decide)
  ⟨h.1, h.2 (by decide)⟩


/-! ### Claim C8: re-parsing the clean title -/

/-- No `m<token>` match start anywhere: no occurrence of `m` directly
followed by a token character. -/
def noTok (m : Char) : List Char → Bool
  | [] => true
  | [_] => true
  | a :: b :: rest => !(a == m && allowedTokChar b) && noTok m (b :: rest)

theorem noTok_tail (m c : Char) (rest : List Char) (h : noTok m (c :: rest) = true) :
    noTok m rest = true := by
  cases rest with
  | nil => rfl
  | cons b r2 =>
    unfold noTok at h
    exact (Bool.and_eq_true_iff.mp h).2

theorem noTok_head (m c : Char) (rest : List Char) (h : noTok m (c :: rest) = true) :
    (c == m && allowedHead rest) = false := by
  cases rest with
  | nil => simp [allowedHead]
  | cons b r2 =>
    unfold noTok at h
    have h1 := (Bool.and_eq_true_iff.mp h).1
    have h1b : (c == m && allowedTokChar b) = false := by
      cases hx : (c == m && allowedTokChar b)
      · rfl
      · rw [hx] at h1
        exact absurd h1 (by simp)
    simpa [allowedHead] using h1b

theorem noTok_cons (m c : Char) (xs : List Char)
    (h1 : (c == m && allowedHead xs) = false) (h2 : noTok m xs = true) :
    noTok m (c :: xs) = true := by
  cases xs with
  | nil => rfl
  | cons b r2 =>
    unfold noTok
    simp only [allowedHead] at h1
    simp [h1, h2]

theorem noTok_dropWhile (m : Char) (p : Char → Bool) :
    ∀ l : List Char, noTok m l = true → noTok m (l.dropWhile p) = true := by
  intro l
  induction l with
  | nil => intro _; rfl
  | cons c rest ih =>
    intro h
    by_cases hp : p c
    · rw [List.dropWhile_cons_of_pos hp]
      exact ih (noTok_tail m c rest h)
    · rw [List.dropWhile_cons_of_neg hp]
      exact h

theorem noTok_append_left (m : Char) :
    ∀ (a b : List Char), noTok m (a ++ b) = true → noTok m a = true := by
  intro a
  induction a with
  | nil => intro b _; rfl
  | cons x xs ih =>
    intro b h
    cases xs with
    | nil => rfl
    | cons y rest =>
      have hh : noTok m (x :: y :: (rest ++ b)) = true := h
      unfold noTok at hh
      have h1 := (Bool.and_eq_true_iff.mp hh).1
      have h2 := (Bool.and_eq_true_iff.mp hh).2
      have h3 : noTok m (y :: rest) = true := ih b h2
      unfold noTok
      simp [h1, h3]

theorem noTok_trim (m : Char) (l : List Char) (h : noTok m l = true) :
    noTok m (jsTrimList l) = true := by
  unfold jsTrimList
  have h1 : noTok m (l.dropWhile wsChar) = true := noTok_dropWhile m wsChar l h
  have hsplit : l.dropWhile wsChar =
      ((l.dropWhile wsChar).reverse.dropWhile wsChar).reverse
        ++ ((l.dropWhile wsChar).reverse.takeWhile wsChar).reverse := by
    have e1 : (l.dropWhile wsChar).reverse.takeWhile wsChar
        ++ (l.dropWhile wsChar).reverse.dropWhile wsChar
        = (l.dropWhile wsChar).reverse := List.takeWhile_append_dropWhile _ _
    have e2 := congrArg List.reverse e1
    rw [List.reverse_append, List.reverse_reverse] at e2
    exact e2.symm
  exact noTok_append_left m _ _ (hsplit ▸ h1)


theorem stripToks_true_head (m2 : Char) :
    ∀ l : List Char, allowedHead (stripToks m2 true l) = false := by
  intro l
  induction l with
  | nil => rfl
  | cons c rest ih =>
    unfold stripToks
    by_cases h1 : allowedTokChar c = true
    · rw [if_pos h1]
      exact ih
    · rw [if_neg h1]
      by_cases h2 : (c == m2 && allowedHead rest) = true
      · rw [if_pos h2]
        exact ih
      · rw [if_neg h2]
        simp only [allowedHead]
        cases hx : allowedTokChar c
        · rfl
        · exact absurd hx h1

theorem stripToks_false_head (m2 : Char) :
    ∀ l : List Char, allowedHead l = false → allowedHead (stripToks m2 false l) = false := by
  intro l hl
  cases l with
  | nil => rfl
  | cons c rest =>
    unfold stripToks
    by_cases h2 : (c == m2 && allowedHead rest) = true
    · rw [if_pos h2]
      exact stripToks_true_head m2 rest
    · rw [if_neg h2]
      simpa [allowedHead] using hl

theorem stripToks_self (m2 : Char) :
    ∀ (l : List Char) (st : Bool), noTok m2 (stripToks m2 st l) = true := by
  intro l
  induction l with
  | nil => intro st; cases st <;> rfl
  | cons c rest ih =>
    intro st
    have hemit : (c == m2 && allowedHead rest) = false →
        noTok m2 (c :: stripToks m2 false rest) = true := by
      intro h2
      refine noTok_cons m2 c _ ?_ (ih false)
      by_cases hc : (c == m2) = true
      · have hr : allowedHead rest = false := by
          cases hx : allowedHead rest
          · rfl
          · rw [hc, hx] at h2
            exact absurd h2 (by simp)
        rw [hc, Bool.true_and]
        exact stripToks_false_head m2 rest hr
      · have hc2 : (c == m2) = false := by
          cases hx : (c == m2)
          · rfl
          · exact absurd hx hc
        rw [hc2, Bool.false_and]
    cases st
    · unfold stripToks
      by_cases h2 : (c == m2 && allowedHead rest) = true
      · rw [if_pos h2]
        exact ih true
      · rw [if_neg h2]
        exact hemit (by cases hx : (c == m2 && allowedHead rest); rfl; exact absurd hx h2)
    · unfold stripToks
      by_cases h1 : allowedTokChar c = true
      · rw [if_pos h1]
        exact ih true
      · rw [if_neg h1]
        by_cases h2 : (c == m2 && allowedHead rest) = true
        · rw [if_pos h2]
          exact ih true
        · rw [if_neg h2]
          exact hemit (by cases hx : (c == m2 && allowedHead rest); rfl; exact absurd hx h2)

theorem stripToks_pres (m m2 : Char) :
    ∀ (l : List Char) (st : Bool), noTok m l = true →
      noTok m (stripToks m2 st l) = true := by
  intro l
  induction l with
  | nil => intro st _; cases st <;> rfl
  | cons c rest ih =>
    intro st h
    have htail : noTok m rest = true := noTok_tail m c rest h
    have hemit : noTok m (c :: stripToks m2 false rest) = true := by
      refine noTok_cons m c _ ?_ (ih false htail)
      by_cases hc : (c == m) = true
      · have hr : allowedHead rest = false := by
          have hh := noTok_head m c rest h
          rw [hc, Bool.true_and] at hh
          exact hh
        rw [hc, Bool.true_and]
        exact stripToks_false_head m2 rest hr
      · have hc2 : (c == m) = false := by
          cases hx : (c == m)
          · rfl
          · exact absurd hx hc
        rw [hc2, Bool.false_and]
    cases st
    · unfold stripToks
      by_cases h2 : (c == m2 && allowedHead rest) = true
      · rw [if_pos h2]
        exact ih true htail
      · rw [if_neg h2]
        exact hemit
    · unfold stripToks
      by_cases h1 : allowedTokChar c = true
      · rw [if_pos h1]
        exact ih true htail
      · rw [if_neg h1]
        by_cases h2 : (c == m2 && allowedHead rest) = true
        · rw [if_pos h2]
          exact ih true htail
        · rw [if_neg h2]
          exact hemit


theorem kwMatchLen_head (c : Char) (rest : List Char) (k : Nat)
    (h : kwMatchLen (c :: rest) = some k) : allowedTokChar c = true := by
  by_contra hc
  have hc2 : allowedTokChar c = false := by
    cases hx : allowedTokChar c
    · rfl
    · exact absurd hx hc
  have hd : wsChar c = true ∨ c = '#' ∨ c = '@' ∨ c = '!' := by
    unfold allowedTokChar at hc2
    rcases Bool.and_eq_false_iff.mp hc2 with h3 | h3
    · rcases Bool.and_eq_false_iff.mp h3 with h4 | h4
      · rcases Bool.and_eq_false_iff.mp h4 with h5 | h5
        · left
          simpa using h5
        · right
          left
          simpa using h5
      · right
        right
        left
        simpa using h4
    · right
      right
      right
      simpa using h3
  have hws : wsChar c = true → False := by
    intro hw
    unfold wsChar at hw
    rcases Bool.or_eq_true_iff.mp hw with hw2 | hw2
    rotate_left
    · have : c = Char.ofNat 12 := by simpa using hw2
      subst this
      simp [kwMatchLen, startsCI, todayChars, todChars, tomorrowChars, tmrChars,
        tomChars, nextWeekChars, toLowerCh] at h
    rcases Bool.or_eq_true_iff.mp hw2 with hw3 | hw3
    rotate_left
    · have : c = Char.ofNat 11 := by simpa using hw3
      subst this
      simp [kwMatchLen, startsCI, todayChars, todChars, tomorrowChars, tmrChars,
        tomChars, nextWeekChars, toLowerCh] at h
    rcases Bool.or_eq_true_iff.mp hw3 with hw4 | hw4
    rotate_left
    · have : c = '\r' := by simpa using hw4
      subst this
      simp [kwMatchLen, startsCI, todayChars, todChars, tomorrowChars, tmrChars,
        tomChars, nextWeekChars, toLowerCh] at h
    rcases Bool.or_eq_true_iff.mp hw4 with hw5 | hw5
    rotate_left
    · have : c = '\n' := by simpa using hw5
      subst this
      simp [kwMatchLen, startsCI, todayChars, todChars, tomorrowChars, tmrChars,
        tomChars, nextWeekChars, toLowerCh] at h
    rcases Bool.or_eq_true_iff.mp hw5 with hw6 | hw6
    · have : c = ' ' := by simpa using hw6
      subst this
      simp [kwMatchLen, startsCI, todayChars, todChars, tomorrowChars, tmrChars,
        tomChars, nextWeekChars, toLowerCh] at h
    · have : c = '\t' := by simpa using hw6
      subst this
      simp [kwMatchLen, startsCI, todayChars, todChars, tomorrowChars, tmrChars,
        tomChars, nextWeekChars, toLowerCh] at h
  rcases hd with hd | hd | hd | hd
  · exact hws hd
  all_goals
    subst hd
    simp [kwMatchLen, startsCI, todayChars, todChars, tomorrowChars, tmrChars,
      tomChars, nextWeekChars, toLowerCh] at h


theorem dateStrip_head (pw : Bool) :
    ∀ l : List Char, allowedHead l = false →
      allowedHead (dateStripAux 0 pw l) = false := by
  intro l hl
  cases l with
  | nil => rfl
  | cons c rest =>
    unfold dateStripAux
    rw [if_neg (by omega : ¬ (0 : Nat) > 0)]
    by_cases hpw : (!pw) = true
    · rw [if_pos hpw]
      cases hm : kwMatchLen (c :: rest) with
      | some k =>
        have := kwMatchLen_head c rest k hm
        simp only [allowedHead] at hl
        rw [this] at hl
        exact absurd hl (by simp)
      | none => simpa [allowedHead] using hl
    · rw [if_neg hpw]
      simpa [allowedHead] using hl

theorem dateStrip_pres (m : Char) :
    ∀ (l : List Char) (skip : Nat) (pw : Bool), noTok m l = true →
      noTok m (dateStripAux skip pw l) = true := by
  intro l
  induction l with
  | nil => intro skip pw _; rfl
  | cons c rest ih =>
    intro skip pw h
    have htail : noTok m rest = true := noTok_tail m c rest h
    have hemit : ∀ pw2 : Bool, noTok m (c :: dateStripAux 0 pw2 rest) = true := by
      intro pw2
      refine noTok_cons m c _ ?_ (ih 0 pw2 htail)
      by_cases hc : (c == m) = true
      · have hr : allowedHead rest = false := by
          have hh := noTok_head m c rest h
          rw [hc, Bool.true_and] at hh
          exact hh
        rw [hc, Bool.true_and]
        exact dateStrip_head pw2 rest hr
      · have hc2 : (c == m) = false := by
          cases hx : (c == m)
          · rfl
          · exact absurd hx hc
        rw [hc2, Bool.false_and]
    unfold dateStripAux
    by_cases hs : skip > 0
    · rw [if_pos hs]
      exact ih (skip - 1) pw htail
    · rw [if_neg hs]
      by_cases hpw : (!pw) = true
      · rw [if_pos hpw]
        cases hm : kwMatchLen (c :: rest) with
        | some k => exact ih (k - 1) true htail
        | none => exact hemit (isWordChar c)
      · rw [if_neg hpw]
        exact hemit (isWordChar c)

theorem collapse_head :
    ∀ l : List Char, allowedHead l = false →
      allowedHead (collapseAux false l) = false := by
  intro l hl
  cases l with
  | nil => rfl
  | cons c rest =>
    unfold collapseAux
    by_cases hw : wsChar c = true
    · rw [if_pos hw]
      rfl
    · rw [if_neg hw]
      simpa [allowedHead] using hl

theorem collapse_pres (m : Char) (hm : (' ' == m) = false) :
    ∀ (l : List Char) (st : Bool), noTok m l = true →
      noTok m (collapseAux st l) = true := by
  intro l
  induction l with
  | nil => intro st _; rfl
  | cons c rest ih =>
    intro st h
    have htail : noTok m rest = true := noTok_tail m c rest h
    unfold collapseAux
    by_cases hw : wsChar c = true
    · rw [if_pos hw]
      by_cases hr : st = true
      · rw [if_pos hr]
        exact ih true htail
      · rw [if_neg hr]
        refine noTok_cons m ' ' _ ?_ (ih true htail)
        rw [hm, Bool.false_and]
    · rw [if_neg hw]
      refine noTok_cons m c _ ?_ (ih false htail)
      by_cases hc : (c == m) = true
      · have hrr : allowedHead rest = false := by
          have hh := noTok_head m c rest h
          rw [hc, Bool.true_and] at hh
          exact hh
        rw [hc, Bool.true_and]
        exact collapse_head rest hrr
      · have hc2 : (c == m) = false := by
          cases hx : (c == m)
          · rfl
          · exact absurd hx hc
        rw [hc2, Bool.false_and]

theorem tagMatchesAux_none_empty :
    ∀ l : List Char, noTok '#' l = true → tagMatchesAux none l = [] := by
  intro l
  induction l with
  | nil => intro _; rfl
  | cons c rest ih =>
    intro h
    unfold tagMatchesAux
    rw [if_neg ?_]
    · exact ih (noTok_tail _ c rest h)
    · have := noTok_head '#' c rest h
      simp [this]

theorem projMatchFirst_none :
    ∀ l : List Char, noTok '@' l = true → projMatchFirst l = none := by
  intro l
  induction l with
  | nil => intro _; rfl
  | cons c rest ih =>
    intro h
    unfold projMatchFirst
    rw [if_neg ?_]
    · exact ih (noTok_tail _ c rest h)
    · have := noTok_head '@' c rest h
      simp [this]


/-- Claim C8 counterexample: re-parsing the clean title can extract new
tokens.  `"!high !low"` keeps its second priority marker (only the first
regex match is removed), so the re-parse finds priority LOW; and in
`"next #x week"` stripping the tag token splices `next` and `week` into the
date keyword `next week`, so the re-parse finds a due date and a different
clean title. -/
theorem C8_counterexample :
    (parseTaskInput denv [] ("!high !low".toList)).priority = some Priority.high ∧
    (parseTaskInput denv []
        ((parseTaskInput denv [] ("!high !low".toList)).cleanTitle)).priority
      = some Priority.low ∧
    (parseTaskInput denv [] ("next #x week".toList)).dueDate = none ∧
    (parseTaskInput denv []
        ((parseTaskInput denv [] ("next #x week".toList)).cleanTitle)).dueDate
      = some denv.nextWeekStr ∧
    (parseTaskInput denv []
          ((parseTaskInput denv [] ("next #x week".toList)).cleanTitle)).cleanTitle
      ≠ (parseTaskInput denv [] ("next #x week".toList)).cleanTitle := by
  refine ⟨by decide, by decide, by decide, by decide, by decide⟩

/-- Claim C8 (amended): re-parsing the clean title of any previous parse
extracts no tags and no project — every `#token` and `@token` is removed
globally and token removal never creates a new one.  Idempotence fails for
the remaining fields: a second priority marker survives (only the first is
stripped), and removing tokens can splice text into a date keyword,
changing the due date and the clean title of the re-parse (see the
counterexample). -/
theorem C8_reparse_no_tags_no_project (env : DateEnv) (projects : List String)
    (text : List Char) :
    (parseTaskInput env projects ((parseTaskInput env projects text).cleanTitle)).tags
      = [] ∧
    (parseTaskInput env projects
        ((parseTaskInput env projects text).cleanTitle)).projectFound = none := by
  have hHash : noTok '#' (parseTaskInput env projects text).cleanTitle = true := by
    unfold parseTaskInput
    dsimp only
    exact noTok_trim '#' _ (collapse_pres '#' (by decide) _ false
      (dateStrip_pres '#' _ 0 false
        (stripToks_pres '#' '@' _ false
          (stripToks_self '#' (stripFirstPriority text) false))))
  have hAt : noTok '@' (parseTaskInput env projects text).cleanTitle = true := by
    unfold parseTaskInput
    dsimp only
    exact noTok_trim '@' _ (collapse_pres '@' (by decide) _ false
      (dateStrip_pres '@' _ 0 false
        (stripToks_self '@' _ false)))
  constructor
  · have hemp := tagMatchesAux_none_empty _ hHash
    unfold parseTaskInput
    dsimp only
    unfold parseTaskInput at hemp
    dsimp only at hemp
    rw [hemp]
    rfl
  · have hnone := projMatchFirst_none _ hAt
    unfold parseTaskInput
    dsimp only
    unfold parseTaskInput at hnone
    dsimp only at hnone
    rw [hnone]
    rfl

end Gitick
